import Mathlib

/-!
# petrify: the asset file system and the table-of-contents tree

A shallow embedding of `filesystem.go` (the `http.FileSystem` view of the
embedded assets), of `toc.go` (the asset tree, the accessors it generates and
the text of the generated tree) and of `bytewriter.go`, with the properties of
the handles, of `Open`, of the tree and of the byte writer.

Conventions of the embedding

* a Go `string` is a list of characters (`GoString`); every string operation
  used here (`path.Join`, `strings.Split`, `strings.Replace`,
  `strings.Contains`) acts on single ASCII bytes, so they are list operations;
* a Go `int` is an `Int` kept in the 64-bit range by `wrapInt`;
* a function that may panic returns an `Option` (`none` is the panic);
* a Go result pair `(value, error)` whose value is only used when the error is
  nil is an `Except GoError value`.
-/

namespace Petrify

/-! ## Machine integers, strings, errors, time -/

/-- A Go string. -/
abbrev GoString := List Char

/-- One byte of asset content. -/
abbrev Byte := Fin 256

/-- Largest value of the 64-bit Go `int`. -/
def maxInt : Int := 2 ^ 63 - 1

/-- Smallest value of the 64-bit Go `int`. -/
def minInt : Int := -(2 ^ 63)

/-- Two's complement wrap-around of an integer result into the 64-bit `int`. -/
def wrapInt (x : Int) : Int := (x + 2 ^ 63) % 2 ^ 64 - 2 ^ 63

/-- Length of a slice as a Go `int`. -/
def len {α : Type} (l : List α) : Int := (l.length : Int)

/-- The slice expression `s[lo:hi]`: it panics (`none`) unless
`0 <= lo <= hi <= len(s)`. The capacity of the slices below equals their
length, and no bound computed by `Readdir` exceeds the length. -/
def sliceExpr {α : Type} (s : List α) (lo hi : Int) : Option (List α) :=
  if 0 ≤ lo ∧ lo ≤ hi ∧ hi ≤ len s then
    some ((s.take hi.toNat).drop lo.toNat)
  else
    none

/-- Go error values. `os.ErrNotExist` is a sentinel compared by identity; every
other error is an error value carrying its text. -/
inductive GoError where
  | ErrNotExist : GoError
  | errorString (text : GoString) : GoError
  deriving DecidableEq, Repr

/-- The method `err.Error()`. -/
def GoError.Error : GoError → GoString
  | .ErrNotExist => "file does not exist".toList
  | .errorString text => text

/-- A `time.Time`, as the count of nanoseconds since the zero time. -/
abbrev Time := Int

/-- The zero value `time.Time{}`. -/
def zeroTime : Time := 0

/-- The method `t.IsZero()`. -/
def Time.IsZero (t : Time) : Bool := decide (t = 0)

/-! ## Library functions on strings and paths -/

/-- `strings.Split(s, "/")`. -/
def Split (s : GoString) : List GoString := s.splitOn '/'

/-- `strings.Replace(s, "\\", "/", -1)`. -/
def ReplaceBackslash (s : GoString) : GoString :=
  s.map (fun c => if c = '\\' then '/' else c)

/-- `strings.Contains(s, substr)`. -/
def Contains (s substr : GoString) : Bool :=
  s.tails.any (fun t => substr.isPrefixOf t)

/-- One step of `path.Clean` on the stack of elements kept so far (innermost
first): an empty element and `.` are dropped; `..` removes the last real
element, is kept in front of a relative path that has nothing to remove, and
is dropped at the root of a rooted path; any other element is kept. -/
def cleanStep (rooted : Bool) (stack : List GoString) (seg : GoString) : List GoString :=
  if seg = [] ∨ seg = ['.'] then stack
  else if seg = ['.', '.'] then
    match stack with
    | [] => if rooted then [] else [seg]
    | top :: below => if top = ['.', '.'] then seg :: stack else below
  else seg :: stack

/-- `path.Clean`, by path elements: the shortest path equivalent to `p` by
lexical processing; the empty result of a relative path is `.`. -/
def Clean (p : GoString) : GoString :=
  if p = [] then ['.']
  else
    let rooted := decide (p.head? = some '/')
    let segs := ((Split p).foldl (cleanStep rooted) []).reverse
    if rooted then '/' :: ['/'].intercalate segs
    else if segs = [] then ['.'] else ['/'].intercalate segs

/-- `path.Join(a, b)`: the non-empty arguments joined by `/` and cleaned; the
empty string when both are empty. -/
def Join (a b : GoString) : GoString :=
  if a = [] ∧ b = [] then []
  else if a = [] then Clean b
  else if b = [] then Clean a
  else Clean (a ++ '/' :: b)

/-! ## `filesystem.go` -/

/-- `FakeFile`: an `os.FileInfo` for a given path and size. -/
structure FakeFile where
  Path : GoString
  Dir : Bool
  Len : Int
  Timestamp : Time
  deriving DecidableEq, Repr

/-- The bit `os.ModeDir`. -/
def ModeDir : Nat := 2 ^ 31

/-- `FakeFile.Mode`: `0644`, with `os.ModeDir` for a directory. -/
def FakeFile.Mode (f : FakeFile) : Nat :=
  let mode := 0o644
  if f.Dir then mode ||| ModeDir else mode

/-- `FakeFile.ModTime`. -/
def FakeFile.ModTime (f : FakeFile) : Time := f.Timestamp

/-- `FakeFile.Size`. -/
def FakeFile.Size (f : FakeFile) : Int := f.Len

/-- `FakeFile.IsDir`: `f.Mode().IsDir()`. -/
def FakeFile.IsDir (f : FakeFile) : Bool := decide (f.Mode &&& ModeDir ≠ 0)

/-- A `bytes.Reader`: the content and the read offset. -/
structure BytesReader where
  s : List Byte
  i : Int
  deriving DecidableEq, Repr

/-- `bytes.NewReader`. -/
def NewReader (b : List Byte) : BytesReader := ⟨b, 0⟩

/-- All bytes from the current offset on, as `ioutil.ReadAll` returns them. -/
def BytesReader.ReadAll (r : BytesReader) : List Byte := r.s.drop r.i.toNat

/-- `AssetFile`: an `http.File` for a file with content. -/
structure AssetFile where
  Reader : BytesReader
  toFakeFile : FakeFile
  deriving DecidableEq, Repr

/-- `NewAssetFile`. -/
def NewAssetFile (defaultFileTimestamp : Time) (name : GoString) (content : List Byte)
    (timestamp : Time) : AssetFile :=
  let timestamp := if timestamp.IsZero then defaultFileTimestamp else timestamp
  { Reader := NewReader content
    toFakeFile := ⟨name, false, len content, timestamp⟩ }

/-- `AssetFile.Size`. -/
def AssetFile.Size (f : AssetFile) : Int := f.toFakeFile.Size

/-- `AssetDirectory`: an `http.File` for a directory. -/
structure AssetDirectory where
  toAssetFile : AssetFile
  ChildrenRead : Int
  Children : List FakeFile
  deriving DecidableEq, Repr

/-- What `os.FileInfo` values returned by `AssetInfo` are asked for. -/
structure FileInfo where
  ModTime : Time

/-- `AssetFS`: the accessors and the mount prefix. `AssetInfo` may be nil. -/
structure AssetFS where
  Asset : GoString → Except GoError (List Byte)
  AssetDir : GoString → Except GoError (List GoString)
  AssetInfo : Option (GoString → Except GoError FileInfo)
  Prefix : GoString

/-- Whether a call returned a nil error. -/
def errIsNil {ε α : Type} : Except ε α → Bool
  | .ok _ => true
  | .error _ => false

/-- `NewAssetDirectory`. -/
def NewAssetDirectory (name : GoString) (children : List GoString) (fs : AssetFS) :
    AssetDirectory :=
  let fileinfos := children.map fun child =>
    ({ Path := child, Dir := errIsNil (fs.AssetDir (Join name child)), Len := 0,
       Timestamp := zeroTime } : FakeFile)
  { toAssetFile := { Reader := NewReader [], toFakeFile := ⟨name, true, 0, zeroTime⟩ }
    ChildrenRead := 0
    Children := fileinfos }

/-- What a `Readdir` call returns: the entries and the error. -/
structure ReaddirResult where
  entries : List FakeFile
  err : Option GoError
  deriving DecidableEq, Repr

/-- `AssetDirectory.Readdir`: the result and the handle after the call; `none`
when the slice expression panics. -/
def AssetDirectory.Readdir (f : AssetDirectory) (count : Int) :
    Option (ReaddirResult × AssetDirectory) :=
  if count ≤ 0 then
    some (⟨f.Children, none⟩, f)
  else
    let count :=
      if wrapInt (f.ChildrenRead + count) > len f.Children then
        wrapInt (len f.Children - f.ChildrenRead)
      else count
    match sliceExpr f.Children f.ChildrenRead (wrapInt (f.ChildrenRead + count)) with
    | none => none
    | some rv => some (⟨rv, none⟩, { f with ChildrenRead := wrapInt (f.ChildrenRead + count) })

/-- A sequence of `Readdir` calls on one handle: the results in call order and
the handle after the last call; `none` as soon as one call panics. -/
def readdirCalls (f : AssetDirectory) : List Int → Option (List ReaddirResult × AssetDirectory)
  | [] => some ([], f)
  | count :: rest =>
    match f.Readdir count with
    | none => none
    | some (r, f1) =>
      match readdirCalls f1 rest with
      | none => none
      | some (rs, f2) => some (r :: rs, f2)

/-- An `http.File` returned by `Open`: a file handle or a directory handle. -/
inductive HttpFile where
  | file (f : AssetFile) : HttpFile
  | dir (d : AssetDirectory) : HttpFile
  deriving DecidableEq, Repr

/-- The statement `if len(name) > 0 && name[0] == '/' { name = name[1:] }`. -/
def stripSlash : GoString → GoString
  | '/' :: rest => rest
  | p => p

/-- The path `Open` passes to the accessors: `path.Join(fs.Prefix, name)` with
one leading `/` removed. -/
def canonicalPath (pre name : GoString) : GoString :=
  stripSlash (Join pre name)

/-- The path elements of `s` that `path.Clean` keeps or interprets: the
`/`-separated segments other than the empty one and `.`. -/
def properSegs (s : GoString) : List GoString :=
  (Split s).filter (fun seg => decide (seg ≠ [] ∧ seg ≠ ['.']))

/-- `AssetFS.Open`. -/
def AssetFS.Open (defaultFileTimestamp : Time) (fs : AssetFS) (name : GoString) :
    Except GoError HttpFile :=
  let name := canonicalPath fs.Prefix name
  match fs.Asset name with
  | .ok b =>
    let timestamp :=
      match fs.AssetInfo with
      | none => defaultFileTimestamp
      | some assetInfo =>
        match assetInfo name with
        | .ok info => info.ModTime
        | .error _ => defaultFileTimestamp
    .ok (.file (NewAssetFile defaultFileTimestamp name b timestamp))
  | .error _ =>
    match fs.AssetDir name with
    | .ok children => .ok (.dir (NewAssetDirectory name children fs))
    | .error err =>
      if Contains err.Error "not found".toList then .error GoError.ErrNotExist
      else .error err

/-! ## `toc.go`: the asset tree -/

/-- Modelled from the spec: the `Asset` record of one embedded file, whose
declaration is not among the sources; `toc.go` reads its fields `Name` (the
key in the table of contents) and `Func` (the name of the function that
returns the content). -/
structure Asset where
  Name : GoString
  Func : GoString
  deriving DecidableEq, Repr

/-- The zero value of `Asset`. -/
def Asset.zero : Asset := ⟨[], []⟩

/-- A Go `map[string]T` with its keys kept distinct: the value under a key. -/
def mapGet {β : Type} : List (GoString × β) → GoString → Option β
  | [], _ => none
  | (k, v) :: rest, key => if k = key then some v else mapGet rest key

/-- The assignment `m[key] = v`. -/
def mapSet {β : Type} : List (GoString × β) → GoString → β → List (GoString × β)
  | [], key, v => [(key, v)]
  | (k, w) :: rest, key, v =>
    if k = key then (key, v) :: rest else (k, w) :: mapSet rest key v

/-- The keys of a map, in the order the model stores them. -/
def mapKeys {β : Type} (m : List (GoString × β)) : List GoString := m.map Prod.fst

/-- `assetTree`: a node with its asset and its children by name. -/
inductive assetTree where
  | mk (Asset : Asset) (Children : List (GoString × assetTree)) : assetTree

/-- The field `node.Asset`. -/
def assetTree.Asset : assetTree → Asset
  | .mk a _ => a

/-- The field `node.Children`. -/
def assetTree.Children : assetTree → List (GoString × assetTree)
  | .mk _ cs => cs

/-- `newAssetTree`: a node with the zero asset and an empty map. -/
def newAssetTree : assetTree := .mk Asset.zero []

/-- `assetTree.child`: the child under `name`, a new node when there is none
(`Add` stores it back under `name`). -/
def assetTree.child (node : assetTree) (name : GoString) : assetTree :=
  match mapGet node.Children name with
  | some rv => rv
  | none => newAssetTree

/-- `assetTree.Add`: walk `route` from `node`, creating the missing nodes, and
set the asset of the node reached. -/
def assetTree.Add : assetTree → List GoString → Petrify.Asset → assetTree
  | node, [], asset => .mk asset node.Children
  | node, name :: route, asset =>
    .mk node.Asset (mapSet node.Children name ((node.child name).Add route asset))

/-- The node reached from `node` along the names of `route`, if every step
finds a child. -/
def assetTree.walk : assetTree → List GoString → Option assetTree
  | node, [] => some node
  | node, name :: route =>
    match mapGet node.Children name with
    | none => none
    | some sub => sub.walk route

/-- The tree `writeTOCTree` builds from the table of contents. -/
def buildTree (toc : List Asset) : assetTree :=
  toc.foldl (fun tree a => tree.Add (Split a.Name) a) newAssetTree

/-- The table of contents added to a tree, asset by asset, as the loop of
`writeTOCTree` does. -/
def addAll (tree : assetTree) (toc : List Asset) : assetTree :=
  toc.foldl (fun tree a => tree.Add (Split a.Name) a) tree

/-- The asset of the node at `route`, the zero asset when there is no node. -/
def nodeAsset (tree : assetTree) (route : List GoString) : Asset :=
  ((tree.walk route).getD newAssetTree).Asset

/-- The path list along which `AssetDir` walks for a path without backslash:
no step for the empty path, otherwise its segments. -/
def dirSegs (d : GoString) : List GoString :=
  if d.length ≠ 0 then Split d else []

/-! ## `toc.go`: the generated accessors -/

/-- The generated `asset`: the content and the file info. -/
structure asset where
  bytes : List Byte
  info : FileInfo

/-- The generated `bintree`; `Func` is the result of calling the node's
function, `none` for a nil function. -/
inductive bintree where
  | mk (Func : Option (Except GoError asset)) (Children : List (GoString × bintree)) : bintree

/-- The field `node.Func`. -/
def bintree.Func : bintree → Option (Except GoError asset)
  | .mk f _ => f

/-- The field `node.Children`. -/
def bintree.Children : bintree → List (GoString × bintree)
  | .mk _ cs => cs

/-- `assetTree.funcOrNil`: `nil` for an empty function name; otherwise the
function of that name, here its result in `env`. -/
def funcOrNil (env : GoString → Except GoError asset) (a : Asset) :
    Option (Except GoError asset) :=
  if a.Func = [] then none else some (env a.Func)

/-- Whether a character stands for itself between the quotes of an interpreted
Go string literal: every character does but the backslash, which starts an
escape sequence, the double quote, which ends the literal, the newline, which
may not occur in it, and NUL and the byte order mark, which the compiler
refuses in a source file. -/
def literalPlainChar (c : Char) : Bool :=
  !(c = '\\' || c = Char.ofNat 34 || c = '\n' || c = Char.ofNat 0 || c = Char.ofNat 0xFEFF)

/-- A text all of whose characters stand for themselves in an interpreted Go
string literal. -/
def literalPlain (k : GoString) : Bool := k.all literalPlainChar

/-- How the Go compiler reads a text that is written between two double quotes:
`value k` is the string denoted, when the quoted text is one valid interpreted
string literal, and `none` otherwise. Of the language only this is used: a text
of characters that stand for themselves denotes itself. What a text with
escape sequences denotes, and which texts are not one literal, is left to the
compiler. -/
structure GoLiteral where
  value : GoString → Option GoString
  plain : ∀ k, literalPlain k = true → value k = some k

/-- A reading of literals that accepts the plain texts only; the concrete
examples, whose keys are plain and so read the same by every `GoLiteral`, are
evaluated with it. -/
def GoLiteral.strict : GoLiteral :=
  ⟨fun k => if literalPlain k = true then some k else none, fun _ h => if_pos h⟩

mutual
/-- The tree `&bintree{funcOrNil, map[string]*bintree{...}}` with one entry per
child and every key kept as the string it is in the `assetTree`. This is what
the compiler reads from the text of `assetTree.writeGoMap` when all keys are
plain and distinct (`toBintree_eq_plainTree`); `toBintree` is the general
case. -/
def plainTree (env : GoString → Except GoError asset) : assetTree → bintree
  | .mk a cs => .mk (funcOrNil env a) (plainTreeChildren env cs)
/-- The entries of `plainTree`. -/
def plainTreeChildren (env : GoString → Except GoError asset) :
    List (GoString × assetTree) → List (GoString × bintree)
  | [] => []
  | (k, t) :: rest => (k, plainTree env t) :: plainTreeChildren env rest
end

mutual
/-- The value of `_bintree` in the compiled program: what the compiler reads
from the literal that `assetTree.writeGoMap` writes for a node,
`&bintree{funcOrNil, map[string]*bintree{...}}`. Each key is written with the
verb `%s` between two double quotes, that is without escaping, so the key of
the compiled map is what the compiler reads from that text (`lit.value`). The
result is `none` when the source is not read in this way: when some key between
its quotes is not one valid literal (a double quote or a newline in it, or an
invalid escape sequence: the source then does not compile, or the text of the
key is read as more than a key), or when two keys of one map literal denote the
same string, which the compiler refuses as a duplicate key. -/
def toBintree (lit : GoLiteral) (env : GoString → Except GoError asset) :
    assetTree → Option bintree
  | .mk a cs =>
    match toBintreeChildren lit env cs with
    | none => none
    | some m => if (mapKeys m).Nodup then some (.mk (funcOrNil env a) m) else none
/-- The entries of the map literal, each key as the compiler reads it. -/
def toBintreeChildren (lit : GoLiteral) (env : GoString → Except GoError asset) :
    List (GoString × assetTree) → Option (List (GoString × bintree))
  | [] => some []
  | (k, t) :: rest =>
    match lit.value k, toBintree lit env t, toBintreeChildren lit env rest with
    | some key, some sub, some m => some ((key, sub) :: m)
    | _, _, _ => none
end

/-- The table `_bindata` written by `writeTOCAsset`: each name with its
function. -/
def bindataTable (env : GoString → Except GoError asset) (toc : List Asset) :
    List (GoString × Except GoError asset) :=
  toc.map fun a => (a.Name, env a.Func)

/-- The order in which a `range` loop visits the keys of a map: some
rearrangement of the keys, chosen by the runtime. -/
structure MapOrder where
  keys : List GoString → List GoString
  perm : ∀ l, (keys l).Perm l

/-- The order that visits the keys as stored. -/
def MapOrder.stored : MapOrder := ⟨fun l => l, fun l => List.Perm.refl l⟩

/-- The node reached in `_bintree` by the loop of `AssetDir` over `pathList`;
`none` when some `node.Children[p]` is nil. -/
def bintree.walk : bintree → List GoString → Option bintree
  | node, [] => some node
  | node, p :: pathList =>
    match mapGet node.Children p with
    | none => none
    | some sub => sub.walk pathList

namespace Generated

/-- The text of `fmt.Errorf("Asset %s not found", name)`. -/
def notFoundText (name : GoString) : GoString :=
  "Asset ".toList ++ name ++ " not found".toList

/-- The generated `Asset`. -/
def Asset (bindata : List (GoString × Except GoError asset)) (name : GoString) :
    Except GoError (List Byte) :=
  let cannonicalName := ReplaceBackslash name
  match mapGet bindata cannonicalName with
  | some f =>
    match f with
    | .error err =>
      .error (.errorString
        ("Asset ".toList ++ name ++ " can't read by error: ".toList ++ err.Error))
    | .ok a => .ok a.bytes
  | none => .error (.errorString (notFoundText name))

/-- The generated `AssetDir`. -/
def AssetDir (order : MapOrder) (root : bintree) (name : GoString) :
    Except GoError (List GoString) :=
  let found :=
    if name.length ≠ 0 then root.walk (Split (ReplaceBackslash name)) else some root
  match found with
  | none => .error (.errorString (notFoundText name))
  | some node =>
    if node.Func.isSome then .error (.errorString (notFoundText name))
    else .ok (order.keys (mapKeys node.Children))

/-- The generated `AssetInfo`. -/
def AssetInfo (bindata : List (GoString × Except GoError asset)) (name : GoString) :
    Except GoError FileInfo :=
  let cannonicalName := ReplaceBackslash name
  match mapGet bindata cannonicalName with
  | some f =>
    match f with
    | .error err =>
      .error (.errorString
        ("AssetInfo ".toList ++ name ++ " can't read by error: ".toList ++ err.Error))
    | .ok a => .ok a.info
  | none => .error (.errorString ("AssetInfo ".toList ++ name ++ " not found".toList))

end Generated

/-- The file system served from the generated accessors of the compiled
program. `_bindata` is a map literal with one key per asset, each written with
`%q`, so a name that occurs twice is a duplicate key, which the compiler
refuses; `_bintree` is read as `toBintree` says. The result is `none` when the
source does not compile or `toBintree` does not give its tree. -/
def generatedFS (lit : GoLiteral) (order : MapOrder) (env : GoString → Except GoError asset)
    (toc : List Petrify.Asset) (pre : GoString) : Option AssetFS :=
  if (toc.map Asset.Name).Nodup then
    match toBintree lit env (buildTree toc) with
    | none => none
    | some root =>
      some
        { Asset := Generated.Asset (bindataTable env toc)
          AssetDir := Generated.AssetDir order root
          AssetInfo := some (Generated.AssetInfo (bindataTable env toc))
          Prefix := pre }
  else none

/-! ## Concrete inputs -/

/-- A directory handle with three children, one of them already read. -/
def exampleDir : AssetDirectory :=
  { toAssetFile := { Reader := NewReader [], toFakeFile := ⟨"data".toList, true, 0, 0⟩ }
    ChildrenRead := 1
    Children := [⟨"a".toList, false, 0, 0⟩, ⟨"b".toList, false, 0, 0⟩, ⟨"c".toList, true, 0, 0⟩] }

/-- The table of contents of the documented example: `data/foo.txt`,
`data/img/a.png`, `data/img/b.png`. -/
def exampleToc : List Asset :=
  [⟨"data/foo.txt".toList, "dataFooTxt".toList⟩,
   ⟨"data/img/a.png".toList, "dataImgAPng".toList⟩,
   ⟨"data/img/b.png".toList, "dataImgBPng".toList⟩]

/-- Content functions for `exampleToc`: every asset loads. -/
def exampleEnv : GoString → Except GoError asset :=
  fun _ => .ok ⟨[104, 105], ⟨1500000000⟩⟩

/-- Content functions for `exampleToc` in which the loader of `data/foo.txt`
fails and the others load. -/
def brokenEnv : GoString → Except GoError asset :=
  fun f =>
    if f = "dataFooTxt".toList then .error (.errorString "gzip: invalid header".toList)
    else .ok ⟨[104, 105], ⟨1500000000⟩⟩

/-- A file system whose accessors never find anything. -/
def emptyFS : AssetFS :=
  { Asset := fun name => .error (.errorString (Generated.notFoundText name))
    AssetDir := fun name => .error (.errorString (Generated.notFoundText name))
    AssetInfo := none
    Prefix := [] }

/-- A file system whose directory accessor fails with `os.ErrNotExist` itself. -/
def sentinelFS : AssetFS :=
  { Asset := fun name => .error (.errorString (Generated.notFoundText name))
    AssetDir := fun _ => .error .ErrNotExist
    AssetInfo := none
    Prefix := [] }

/-- The tree generated for the documented example, whose keys are plain
(`toBintree_exampleToc`). -/
def exampleTree : bintree := plainTree exampleEnv (buildTree exampleToc)

/-- The file system generated for `exampleToc`, every asset loading, mounted
under `pre` (`generatedFS_exampleToc`). -/
def exampleFS (pre : GoString) : AssetFS :=
  { Asset := Generated.Asset (bindataTable exampleEnv exampleToc)
    AssetDir := Generated.AssetDir MapOrder.stored exampleTree
    AssetInfo := some (Generated.AssetInfo (bindataTable exampleEnv exampleToc))
    Prefix := pre }

/-- A table of contents with one asset, whose first segment contains a
backslash. -/
def backslashToc : List Asset := [⟨"a\\b/c".toList, "aBC".toList⟩]

/-- The node that the generated `AssetDir` resolves `name` to: the root for the
empty name, otherwise the node its loop reaches, if it reaches one. -/
def Generated.resolve (root : bintree) (name : GoString) : Option bintree :=
  if name.length ≠ 0 then root.walk (Split (ReplaceBackslash name)) else some root

/-- The table of the documented example without `data/foo.txt`; its keys are
plain too (`toBintree_exampleTocNoFoo`). -/
def exampleTocNoFoo : List Asset :=
  [⟨"data/img/a.png".toList, "dataImgAPng".toList⟩,
   ⟨"data/img/b.png".toList, "dataImgBPng".toList⟩]

/-- The name `a` inserted twice, with different functions. -/
def duplicateToc : List Asset := [⟨"a".toList, "first".toList⟩, ⟨"a".toList, "second".toList⟩]

/-- The name `a` followed by `a/b`. -/
def conflictToc : List Asset := [⟨"a".toList, "fileA".toList⟩, ⟨"a/b".toList, "fileB".toList⟩]

/-- The second result of `filepath.Split(path)`: what follows the last `/`. -/
def afterLastSlash (path : GoString) : GoString := (Split path).getLastD []

/-- `FakeFile.Name`. -/
def FakeFile.Name (f : FakeFile) : GoString := afterLastSlash f.Path

/-- `AssetDirectory.Stat`: the handle itself as an `os.FileInfo`; what it
reports is what its embedded `FakeFile` reports. -/
def AssetDirectory.Stat (f : AssetDirectory) : FakeFile := f.toAssetFile.toFakeFile

/-- A file system without content whose directory accessor lists one child
with a `/` in its name. -/
def slashChildFS : AssetFS :=
  { Asset := fun name => .error (.errorString (Generated.notFoundText name))
    AssetDir := fun name =>
      if name = [] then .ok ["a/b".toList]
      else .error (.errorString (Generated.notFoundText name))
    AssetInfo := none
    Prefix := [] }

/-- The states of a directory handle reachable from `f0` by `Readdir` calls
whose cursor addition does not overflow. -/
inductive Reachable (f0 : AssetDirectory) : AssetDirectory → Prop where
  | opened : Reachable f0 f0
  | readdir (f f1 : AssetDirectory) (count : Int) (r : ReaddirResult) :
      Reachable f0 f → (count ≤ 0 ∨ f.ChildrenRead + count ≤ maxInt) →
      f.Readdir count = some (r, f1) → Reachable f0 f1

/-! ## `bytewriter.go` -/

/-- The variable `newline`. -/
def newline : GoString := ['\n']

/-- The variable `dataIndent`. -/
def dataIndent : GoString := ['\t', '\t']

/-- The variable `space`. -/
def space : GoString := [' ']

/-- The digits that the verb `%x` writes. -/
def hexDigits : GoString := "0123456789abcdef".toList

/-- The digit of a value below 16. -/
def hexDigit (n : Nat) : Char := hexDigits.getD n '0'

/-- The value of a digit: its place among `hexDigits`. -/
def hexVal (c : Char) : Nat := hexDigits.indexOf c

/-- The text of `fmt.Fprintf(w, "0x%02x,", b)` for a byte `b`. -/
def hexToken (b : Byte) : GoString :=
  ['0', 'x', hexDigit (b.val / 16), hexDigit (b.val % 16), ',']

/-- `ByteWriter`: the text its embedded `io.Writer` has received so far (the
writer keeps what it is given, as a buffer or a file does; `Write` ignores its
results) and the counter `c`. -/
structure ByteWriter where
  Writer : GoString
  c : Int
  deriving DecidableEq, Repr

/-- The body of the loop of `ByteWriter.Write` for the byte `b`. -/
def ByteWriter.step (w : ByteWriter) (b : Byte) : ByteWriter :=
  let w1 : ByteWriter :=
    if w.c.tmod 12 = 0 then { Writer := w.Writer ++ newline ++ dataIndent, c := 0 }
    else { w with Writer := w.Writer ++ space }
  { Writer := w1.Writer ++ hexToken b, c := wrapInt (w1.c + 1) }

/-- `ByteWriter.Write`: the results `n` and `err`, and the writer after the
call. -/
def ByteWriter.Write (w : ByteWriter) (p : List Byte) : (Int × Option GoError) × ByteWriter :=
  if len p = 0 then ((0, none), w)
  else
    let r := p.enum.foldl
      (fun (st : Int × ByteWriter) (ib : Nat × Byte) => ((ib.1 : Int), st.2.step ib.2))
      ((0 : Int), w)
    ((wrapInt (r.1 + 1), none), r.2)

/-- Successive `Write` calls, one per chunk. -/
def writeAll (w : ByteWriter) (chunks : List (List Byte)) : ByteWriter :=
  chunks.foldl (fun w p => (w.Write p).2) w

/-- The separator in front of the `k`-th byte written by a fresh writer. -/
def freshSep (k : Nat) : GoString :=
  if k % 12 = 0 then newline ++ dataIndent else space

/-! ## `toc.go`: the text of the generated tree -/

/-- `ident`: `n` tab characters. -/
def ident (n : Nat) : GoString := List.replicate n '\t'

/-- `assetTree.funcOrNil`: the text `nil` for an empty function name, otherwise
the function name. -/
def assetTree.funcOrNil (node : assetTree) : GoString :=
  if node.Asset.Func = [] then "nil".toList else node.Asset.Func

/-- `sort.Strings`: ascending in the lexicographic order of the strings (for
UTF-8 text the order of the bytes is the order of the characters). -/
def sortStrings (l : List GoString) : List GoString := l.insertionSort (· ≤ ·)

mutual
/-- `assetTree.writeGoMap`: the text it writes. The keys of `node.Children` are
collected in the order the map is visited and sorted; the entry of each key is
its indentation, the quoted key and the text of its child, which is computed
per child here and looked up by key. -/
def assetTree.writeGoMap (order : MapOrder) : assetTree → Nat → GoString
  | .mk a cs, nident =>
    let filenames := sortStrings (order.keys (mapKeys cs))
    let written := writeGoMapChildren order cs (nident + 1)
    "&bintree\x7b".toList ++ (assetTree.mk a cs).funcOrNil ++
      ", map[string]*bintree\x7b".toList ++
      (if cs.length > 0 then
        "\n".toList ++
        (filenames.map fun p =>
          ident (nident + 1) ++ "\"".toList ++ p ++ "\": ".toList ++
            (mapGet written p).getD []).flatten ++
        ident nident
      else []) ++
      "\x7d\x7d".toList ++ (if nident > 0 then ",".toList else []) ++ "\n".toList
/-- The text written for each child, at the indentation `nident`. -/
def writeGoMapChildren (order : MapOrder) :
    List (GoString × assetTree) → Nat → List (GoString × GoString)
  | [], _ => []
  | (k, t) :: rest, nident =>
    (k, t.writeGoMap order nident) :: writeGoMapChildren order rest nident
end

/-- The text that `WriteAsGoMap` writes before the tree. -/
def bintreeDecl : GoString :=
  ("type bintree struct \x7b\n" ++
    "\tFunc     func() (*asset, error)\n" ++
    "\tChildren map[string]*bintree\n" ++
    "\x7d\n" ++
    "var _bintree = ").toList

/-- `assetTree.WriteAsGoMap`: the text it writes. -/
def assetTree.WriteAsGoMap (order : MapOrder) (node : assetTree) : GoString :=
  bintreeDecl ++ node.writeGoMap order 0

/-- The source of `AssetDir` that `writeTOCTree` writes first. -/
def assetDirSource : GoString :=
  ("// AssetDir returns the file names below a certain\n" ++
    "// directory embedded in the file by go-bindata.\n" ++
    "// For example if you run go-bindata on data/... and data contains the\n" ++
    "// following hierarchy:\n" ++
    "//     data/\n" ++
    "//       foo.txt\n" ++
    "//       img/\n" ++
    "//         a.png\n" ++
    "//         b.png\n" ++
    "// then AssetDir(\"data\") would return []string\x7b\"foo.txt\", \"img\"\x7d\n" ++
    "// AssetDir(\"data/img\") would return []string\x7b\"a.png\", \"b.png\"\x7d\n" ++
    "// AssetDir(\"foo.txt\") and AssetDir(\"notexist\") would return an error\n" ++
    "// AssetDir(\"\") will return []string\x7b\"data\"\x7d.\n" ++
    "func AssetDir(name string) ([]string, error) \x7b\n" ++
    "\tnode := _bintree\n" ++
    "\tif len(name) != 0 \x7b\n" ++
    "\t\tcannonicalName := strings.Replace(name, \"\\\\\", \"/\", -1)\n" ++
    "\t\tpathList := strings.Split(cannonicalName, \"/\")\n" ++
    "\t\tfor _, p := range pathList \x7b\n" ++
    "\t\t\tnode = node.Children[p]\n" ++
    "\t\t\tif node == nil \x7b\n" ++
    "\t\t\t\treturn nil, fmt.Errorf(\"Asset %s not found\", name)\n" ++
    "\t\t\t\x7d\n" ++
    "\t\t\x7d\n" ++
    "\t\x7d\n" ++
    "\tif node.Func != nil \x7b\n" ++
    "\t\treturn nil, fmt.Errorf(\"Asset %s not found\", name)\n" ++
    "\t\x7d\n" ++
    "\trv := make([]string, 0, len(node.Children))\n" ++
    "\tfor childName := range node.Children \x7b\n" ++
    "\t\trv = append(rv, childName)\n" ++
    "\t\x7d\n" ++
    "\treturn rv, nil\n" ++
    "\x7d\n" ++
    "\n").toList

/-- `writeTOCTree`: the text it writes, for a writer that keeps what it is
given. -/
def writeTOCTree (order : MapOrder) (toc : List Asset) : GoString :=
  assetDirSource ++ (buildTree toc).WriteAsGoMap order


/-- Two trees with the same nodes and the same asset at every node, whatever
the order in which their maps store the children. -/
def sameTree (t t2 : assetTree) : Prop :=
  ∀ p : List GoString,
    ((t.walk p).isSome = (t2.walk p).isSome) ∧ nodeAsset t p = nodeAsset t2 p

/-- The order that visits the keys from the last stored to the first. -/
def MapOrder.reversed : MapOrder := ⟨fun l => l.reverse, fun l => List.reverse_perm l⟩

/-! ## Machine arithmetic and slices -/

theorem wrapInt_of_range (x : Int) (h1 : minInt ≤ x) (h2 : x ≤ maxInt) : wrapInt x = x := by
  unfold wrapInt
  unfold minInt at h1
  unfold maxInt at h2
  omega

theorem sliceExpr_eq {α : Type} (s : List α) (lo hi : Int) (h0 : 0 ≤ lo) (h1 : lo ≤ hi)
    (h2 : hi ≤ len s) :
    sliceExpr s lo hi = some ((s.drop lo.toNat).take (hi - lo).toNat) := by
  unfold sliceExpr
  rw [if_pos ⟨h0, h1, h2⟩, List.drop_take]
  congr 2
  omega

theorem take_one_drop {α : Type} (l : List α) (n : Nat) (h : n < l.length) :
    (l.drop n).take 1 = [l.get ⟨n, h⟩] := by
  rw [List.drop_eq_getElem_cons h]
  rfl

/-! ## `Readdir` -/

/-- The result of `Readdir(count)` for `count > 0` on a handle whose cursor is
within the snapshot, when the cursor addition does not overflow. -/
theorem Readdir_pos_eq (f : AssetDirectory) (count : Int)
    (hc0 : 0 ≤ f.ChildrenRead) (hcN : f.ChildrenRead ≤ len f.Children)
    (hpos : 0 < count) (hov : f.ChildrenRead + count ≤ maxInt) :
    f.Readdir count = some
      (⟨(f.Children.drop f.ChildrenRead.toNat).take
          (min (f.ChildrenRead + count) (len f.Children) - f.ChildrenRead).toNat, none⟩,
       { f with ChildrenRead := min (f.ChildrenRead + count) (len f.Children) }) := by
  have hw : wrapInt (f.ChildrenRead + count) = f.ChildrenRead + count :=
    wrapInt_of_range _ (by unfold minInt; omega) hov
  unfold AssetDirectory.Readdir
  rw [if_neg (by omega)]
  simp only [hw]
  by_cases hgt : f.ChildrenRead + count > len f.Children
  · have hmax : len f.Children ≤ maxInt := by omega
    have hw2 : wrapInt (len f.Children - f.ChildrenRead) = len f.Children - f.ChildrenRead :=
      wrapInt_of_range _ (by unfold minInt; omega) (by omega)
    have hw3 : wrapInt (f.ChildrenRead + (len f.Children - f.ChildrenRead)) = len f.Children := by
      rw [show f.ChildrenRead + (len f.Children - f.ChildrenRead) = len f.Children by omega]
      exact wrapInt_of_range _ (by unfold minInt; unfold len; omega) hmax
    rw [if_pos hgt, hw2, hw3, sliceExpr_eq _ _ _ hc0 hcN le_rfl]
    rw [min_eq_right (by omega)]
  · rw [if_neg hgt, hw, sliceExpr_eq _ _ _ hc0 (by omega) (by omega)]
    rw [min_eq_left (by omega)]

/-- C1: for a handle with cursor `c`, `0 <= c <= N`, and `count > 0` with
`c + count` not overflowing, `Readdir(count)` returns the entries
`Children[c .. min(c+count, N))` in snapshot order with a nil error, leaves the
snapshot as it is and the cursor at `min(c+count, N)`, so the cursor advances by
the number of entries returned. -/
theorem Readdir_count_pos (f : AssetDirectory) (count : Int)
    (hc0 : 0 ≤ f.ChildrenRead) (hcN : f.ChildrenRead ≤ len f.Children)
    (hpos : 0 < count) (hov : f.ChildrenRead + count ≤ maxInt) :
    f.Readdir count = some
      (⟨(f.Children.drop f.ChildrenRead.toNat).take
          (min (f.ChildrenRead + count) (len f.Children) - f.ChildrenRead).toNat, none⟩,
       { f with ChildrenRead := min (f.ChildrenRead + count) (len f.Children) }) ∧
    len ((f.Children.drop f.ChildrenRead.toNat).take
          (min (f.ChildrenRead + count) (len f.Children) - f.ChildrenRead).toNat)
      = min (f.ChildrenRead + count) (len f.Children) - f.ChildrenRead ∧
    (f.ChildrenRead = len f.Children →
      (f.Children.drop f.ChildrenRead.toNat).take
          (min (f.ChildrenRead + count) (len f.Children) - f.ChildrenRead).toNat = []) := by
  refine ⟨Readdir_pos_eq f count hc0 hcN hpos hov, ?_, ?_⟩
  · unfold len at *
    rw [List.length_take, List.length_drop]
    omega
  · intro hc
    unfold len at *
    rw [List.drop_eq_nil_of_le (by omega)]
    exact List.take_nil

/-- Witness of C1: five entries asked of `exampleDir`, two returned. -/
theorem Readdir_count_pos_witness :
    (0 ≤ exampleDir.ChildrenRead ∧ exampleDir.ChildrenRead ≤ len exampleDir.Children ∧
      (0 : Int) < 5 ∧ exampleDir.ChildrenRead + 5 ≤ maxInt) ∧
    exampleDir.Readdir 5 = some
      (⟨[⟨"b".toList, false, 0, 0⟩, ⟨"c".toList, true, 0, 0⟩], none⟩,
       { exampleDir with ChildrenRead := 3 }) :=
  ⟨⟨by decide, by decide, by decide, by decide⟩,
   (Readdir_count_pos exampleDir 5 (by decide) (by decide) (by decide) (by decide)).1⟩

/-- C2: for every handle, every cursor and every `count <= 0`, `Readdir(count)`
returns the whole children snapshot with a nil error and leaves the handle,
and so the cursor, unchanged. -/
theorem Readdir_count_nonpos (f : AssetDirectory) (count : Int) (h : count ≤ 0) :
    f.Readdir count = some (⟨f.Children, none⟩, f) := by
  unfold AssetDirectory.Readdir
  rw [if_pos h]

/-- Witness of C2: `Readdir(0)` on `exampleDir`, whose cursor is 1. -/
theorem Readdir_count_nonpos_witness :
    (0 : Int) ≤ 0 ∧ exampleDir.Readdir 0 = some (⟨exampleDir.Children, none⟩, exampleDir) :=
  ⟨by decide, Readdir_count_nonpos exampleDir 0 (by decide)⟩

/-- One `Readdir(1)` call with an unread entry left returns that entry. -/
theorem Readdir_one_unread (f : AssetDirectory) (n : Nat) (hc : f.ChildrenRead = n)
    (hn : n < f.Children.length) (hmax : len f.Children < maxInt) :
    f.Readdir 1 = some (⟨[f.Children.get ⟨n, hn⟩], none⟩,
      { f with ChildrenRead := (n : Int) + 1 }) := by
  have hlen : len f.Children = (f.Children.length : Int) := rfl
  rw [Readdir_pos_eq f 1 (by omega) (by omega) (by omega) (by omega)]
  rw [min_eq_left (by omega), hc]
  rw [show ((n : Int) + 1 - n).toNat = 1 by omega, Int.toNat_ofNat, take_one_drop _ _ hn]

/-- One `Readdir(1)` call with every entry read returns nothing. -/
theorem Readdir_one_exhausted (f : AssetDirectory) (hc : f.ChildrenRead = len f.Children)
    (hmax : len f.Children < maxInt) :
    f.Readdir 1 = some (⟨[], none⟩, f) := by
  have hlen : len f.Children = (f.Children.length : Int) := rfl
  rw [Readdir_pos_eq f 1 (by omega) (by omega) (by omega) (by omega)]
  rw [min_eq_right (by omega), ← hc]
  simp

theorem readdirCalls_cons (f : AssetDirectory) (x : Int) (xs : List Int) :
    readdirCalls f (x :: xs) =
      match f.Readdir x with
      | none => none
      | some (r, f1) =>
        match readdirCalls f1 xs with
        | none => none
        | some (rs, f2) => some (r :: rs, f2) := rfl

theorem readdirCalls_append (f : AssetDirectory) (xs ys : List Int) :
    readdirCalls f (xs ++ ys) =
      match readdirCalls f xs with
      | none => none
      | some (rs, f1) =>
        match readdirCalls f1 ys with
        | none => none
        | some (rs2, f2) => some (rs ++ rs2, f2) := by
  induction xs generalizing f with
  | nil =>
    rw [List.nil_append]
    show _ = match readdirCalls f ys with
      | none => none
      | some (rs2, f2) => some ([] ++ rs2, f2)
    cases readdirCalls f ys with
    | none => rfl
    | some p => rfl
  | cons x xs ih =>
    rw [List.cons_append, readdirCalls_cons, readdirCalls_cons]
    cases f.Readdir x with
    | none => rfl
    | some p =>
      obtain ⟨r, f1⟩ := p
      simp only
      rw [ih f1]
      cases readdirCalls f1 xs with
      | none => rfl
      | some q =>
        obtain ⟨rs, f2⟩ := q
        simp only
        cases readdirCalls f2 ys with
        | none => rfl
        | some q2 => rfl

theorem readdirCalls_unread (k : Nat) : ∀ (f : AssetDirectory) (n : Nat),
    f.ChildrenRead = n → n + k = f.Children.length → len f.Children < maxInt →
    readdirCalls f (List.replicate k 1) =
      some ((f.Children.drop n).map (fun c => ⟨[c], none⟩),
        { f with ChildrenRead := len f.Children }) := by
  induction k with
  | zero =>
    intro f n hc hn _
    have h1 : f.Children.drop n = [] := List.drop_eq_nil_of_le (by omega)
    have h2 : len f.Children = f.ChildrenRead := by unfold len; omega
    simp only [List.replicate, readdirCalls, h1, List.map_nil, h2]
  | succ k ih =>
    intro f n hc hn hmax
    have hlt : n < f.Children.length := by omega
    simp only [List.replicate, readdirCalls]
    rw [Readdir_one_unread f n hc hlt hmax]
    simp only
    rw [ih { f with ChildrenRead := (n : Int) + 1 } (n + 1) (by simp) (by simp; omega) hmax]
    simp only
    rw [List.drop_eq_getElem_cons hlt]
    rfl

theorem readdirCalls_exhausted (m : Nat) (f : AssetDirectory)
    (hc : f.ChildrenRead = len f.Children) (hmax : len f.Children < maxInt) :
    readdirCalls f (List.replicate m 1) = some (List.replicate m ⟨[], none⟩, f) := by
  induction m with
  | zero => rfl
  | succ m ih =>
    simp only [List.replicate, readdirCalls]
    rw [Readdir_one_exhausted f hc hmax]
    simp only [ih]

/-- C3: on a handle fresh from `NewAssetDirectory` with `N` children (`N` below
the largest `int`, as the length of every slice is), `N` successive
`Readdir(1)` calls return the children of the snapshot one by one, in order,
each with a nil error, and each of any `m` further calls returns an empty
sequence with a nil error. -/
theorem NewAssetDirectory_pagination (name : GoString) (children : List GoString) (fs : AssetFS)
    (m : Nat) (hmax : len children < maxInt) :
    readdirCalls (NewAssetDirectory name children fs) (List.replicate (children.length + m) 1) =
      some ((NewAssetDirectory name children fs).Children.map (fun c => ⟨[c], none⟩)
              ++ List.replicate m ⟨[], none⟩,
            { NewAssetDirectory name children fs with ChildrenRead := len children }) := by
  have hl : (NewAssetDirectory name children fs).Children.length = children.length := by
    simp [NewAssetDirectory]
  have hlen : len (NewAssetDirectory name children fs).Children = len children := by
    unfold len; rw [hl]
  rw [List.replicate_add, readdirCalls_append]
  rw [readdirCalls_unread children.length (NewAssetDirectory name children fs) 0 rfl
    (by rw [hl]; simp) (by rw [hlen]; exact hmax)]
  simp only
  rw [readdirCalls_exhausted m _ (by simp [hlen]) (by simpa [hlen] using hmax)]
  simp [hlen]

/-- Witness of C3: a directory of two children read by four `Readdir(1)` calls. -/
theorem NewAssetDirectory_pagination_witness :
    len ["a".toList, "b".toList] < maxInt ∧
    readdirCalls (NewAssetDirectory "d".toList ["a".toList, "b".toList] emptyFS) [1, 1, 1, 1] =
      some ([⟨[⟨"a".toList, false, 0, 0⟩], none⟩, ⟨[⟨"b".toList, false, 0, 0⟩], none⟩,
             ⟨[], none⟩, ⟨[], none⟩],
            { NewAssetDirectory "d".toList ["a".toList, "b".toList] emptyFS with
              ChildrenRead := 2 }) :=
  ⟨by decide,
   NewAssetDirectory_pagination "d".toList ["a".toList, "b".toList] emptyFS 2 (by decide)⟩

/-- C4, at the failing input: on a fresh handle with one child, `Readdir(1)`
followed by `Readdir(9223372036854775807)` panics: the cursor addition wraps to
a negative number, the guard does not clamp `count`, and the upper bound of the
slice expression is below the lower one. -/
theorem Readdir_overflow_panics (name child : GoString) (fs : AssetFS) :
    readdirCalls (NewAssetDirectory name [child] fs) [1, maxInt] = none := by
  have h1 : (NewAssetDirectory name [child] fs).Readdir 1 =
      some (⟨(NewAssetDirectory name [child] fs).Children, none⟩,
        { NewAssetDirectory name [child] fs with ChildrenRead := 1 }) := by
    rw [Readdir_pos_eq _ 1 (le_refl (0 : Int)) (by simp [NewAssetDirectory, len]) (by decide)
      (show (0 : Int) + 1 ≤ maxInt by decide)]
    rfl
  have h2 : ({ NewAssetDirectory name [child] fs with ChildrenRead := 1 } :
      AssetDirectory).Readdir maxInt = none := by
    norm_num [AssetDirectory.Readdir, sliceExpr, NewAssetDirectory, len, maxInt, wrapInt]
  rw [readdirCalls_cons, h1]
  simp only
  rw [readdirCalls_cons, h2]

/-! ## `Open` -/

theorem FakeFile.IsDir_eq_Dir (f : FakeFile) : f.IsDir = f.Dir := by
  obtain ⟨p, d, l, t⟩ := f
  cases d
  · show decide ((0o644 : Nat) &&& ModeDir ≠ 0) = false
    decide
  · show decide (((0o644 : Nat) ||| ModeDir) &&& ModeDir ≠ 0) = true
    decide

/-- C5: when the content accessor returns the bytes `b` for the canonical path
of `name`, whatever the directory accessor does, `Open` returns a nil error and
a file handle whose `Size` is `len(b)`, whose `IsDir` is false, and whose
reader holds `b` at offset 0 and reads back exactly `b`. -/
theorem Open_leaf_roundtrip (ts : Time) (fs : AssetFS) (name : GoString) (b : List Byte)
    (h : fs.Asset (canonicalPath fs.Prefix name) = .ok b) :
    ∃ f : AssetFile, fs.Open ts name = .ok (.file f) ∧
      f.Size = len b ∧ f.toFakeFile.IsDir = false ∧
      f.Reader.s = b ∧ f.Reader.i = 0 ∧ f.Reader.ReadAll = b := by
  unfold AssetFS.Open
  simp only [h]
  exact ⟨_, rfl, rfl, FakeFile.IsDir_eq_Dir _, rfl, rfl, rfl⟩

/-- Witness of C5: `/img/a.png` opened under the prefix `data`. -/
theorem Open_leaf_roundtrip_witness :
    (exampleFS "data".toList).Asset
        (canonicalPath (exampleFS "data".toList).Prefix "/img/a.png".toList) = .ok [104, 105] ∧
    ∃ f : AssetFile, (exampleFS "data".toList).Open 1 "/img/a.png".toList = .ok (.file f) ∧
      f.Size = len ([104, 105] : List Byte) ∧ f.toFakeFile.IsDir = false ∧
      f.Reader.s = [104, 105] ∧ f.Reader.i = 0 ∧ f.Reader.ReadAll = [104, 105] :=
  ⟨rfl, Open_leaf_roundtrip 1 (exampleFS "data".toList) "/img/a.png".toList [104, 105] rfl⟩

/-- C6, as amended: when the content accessor fails and the directory accessor
fails with `e`, `Open` returns no handle; it returns `os.ErrNotExist` when the
text of `e` contains `not found` and `e` itself otherwise; so it returns
`os.ErrNotExist` exactly when the text of `e` contains `not found` or `e` is
`os.ErrNotExist` itself. -/
theorem Open_error_classification (ts : Time) (fs : AssetFS) (name : GoString) (e0 e : GoError)
    (hA : fs.Asset (canonicalPath fs.Prefix name) = .error e0)
    (hD : fs.AssetDir (canonicalPath fs.Prefix name) = .error e) :
    (Contains e.Error "not found".toList = true → fs.Open ts name = .error .ErrNotExist) ∧
    (Contains e.Error "not found".toList = false → fs.Open ts name = .error e) ∧
    (fs.Open ts name = .error .ErrNotExist ↔
      (Contains e.Error "not found".toList = true ∨ e = .ErrNotExist)) := by
  have hopen : fs.Open ts name =
      if Contains e.Error "not found".toList then .error GoError.ErrNotExist else .error e := by
    unfold AssetFS.Open
    simp only [hA, hD]
  rw [hopen]
  by_cases hc : Contains e.Error "not found".toList = true
  · rw [if_pos hc]
    refine ⟨fun _ => rfl, fun h => ?_, fun _ => Or.inl hc, fun _ => rfl⟩
    rw [hc] at h
    cases h
  · rw [if_neg hc]
    refine ⟨fun h => absurd h hc, fun _ => rfl, ?_, ?_⟩
    · intro h
      injection h with h1
      exact Or.inr h1
    · rintro (h | h)
      · exact absurd h hc
      · rw [h]

/-- Witness of C6: a path neither accessor finds is reported as
`os.ErrNotExist`. -/
theorem Open_error_classification_witness :
    (emptyFS.Asset (canonicalPath emptyFS.Prefix "missing/path".toList) =
        .error (.errorString "Asset missing/path not found".toList) ∧
      emptyFS.AssetDir (canonicalPath emptyFS.Prefix "missing/path".toList) =
        .error (.errorString "Asset missing/path not found".toList)) ∧
    emptyFS.Open 1 "missing/path".toList = .error .ErrNotExist :=
  ⟨⟨rfl, rfl⟩,
   (Open_error_classification 1 emptyFS "missing/path".toList _ _ rfl rfl).1 (by decide)⟩

/-- C6 as stated fails: when the directory accessor fails with `os.ErrNotExist`
itself, whose text `file does not exist` does not contain `not found`, `Open`
passes it on, and so returns `os.ErrNotExist` for a failure that is not a
not-found failure in the sense of the claim. -/
theorem Open_returns_ErrNotExist_without_not_found :
    errIsNil (sentinelFS.Asset (canonicalPath sentinelFS.Prefix "x".toList)) = false ∧
    sentinelFS.AssetDir (canonicalPath sentinelFS.Prefix "x".toList) = .error .ErrNotExist ∧
    Contains GoError.ErrNotExist.Error "not found".toList = false ∧
    sentinelFS.Open 1 "x".toList = .error .ErrNotExist :=
  ⟨rfl, rfl, by decide, rfl⟩

/-! ## Paths: `strings.Split`, `path.Clean` and the canonical path of `Open` -/

theorem Split_nil : Split [] = [[]] := rfl

theorem Split_cons (c : Char) (s : GoString) :
    Split (c :: s) = if c = '/' then [] :: Split s else (Split s).modifyHead (List.cons c) := by
  unfold Split List.splitOn
  rw [List.splitOnP_cons]
  by_cases h : c = '/'
  · simp [h]
  · simp [h]

theorem Split_ne_nil (s : GoString) : Split s ≠ [] := List.splitOnP_ne_nil _ _

theorem Split_append_sep (a b : GoString) : Split (a ++ '/' :: b) = Split a ++ Split b := by
  induction a with
  | nil => rw [List.nil_append, Split_cons, if_pos rfl, Split_nil]; rfl
  | cons c a ih =>
    rw [List.cons_append, Split_cons, Split_cons, ih]
    by_cases h : c = '/'
    · rw [if_pos h, if_pos h]; rfl
    · rw [if_neg h, if_neg h]
      cases hs : Split a with
      | nil => exact absurd hs (Split_ne_nil a)
      | cons x xs => rfl

theorem not_sep_mem_of_mem_Split (s seg : GoString) (h : seg ∈ Split s) : '/' ∉ seg := by
  induction s generalizing seg with
  | nil =>
    rw [Split_nil, List.mem_singleton] at h
    rw [h]; exact List.not_mem_nil _
  | cons c s ih =>
    rw [Split_cons] at h
    by_cases hc : c = '/'
    · rw [if_pos hc, List.mem_cons] at h
      rcases h with h | h
      · rw [h]; exact List.not_mem_nil _
      · exact ih seg h
    · rw [if_neg hc] at h
      cases hs : Split s with
      | nil => exact absurd hs (Split_ne_nil s)
      | cons x xs =>
        rw [hs] at h ih
        simp only [List.modifyHead, List.mem_cons] at h
        rcases h with h | h
        · rw [h]
          intro hmem
          rcases List.mem_cons.mp hmem with h1 | h1
          · exact hc h1.symm
          · exact ih x (List.mem_cons_self _ _) h1
        · exact ih seg (List.mem_cons_of_mem _ h)

theorem Split_injective (s t : GoString) (h : Split s = Split t) : s = t := by
  have hs := List.intercalate_splitOn s '/'
  have ht := List.intercalate_splitOn t '/'
  unfold Split at h
  rw [h] at hs
  exact hs.symm.trans ht

theorem foldl_cleanStep (rooted : Bool) (segs : List GoString)
    (h : ['.', '.'] ∉ segs) (acc : List GoString) :
    segs.foldl (cleanStep rooted) acc =
      (segs.filter (fun seg => decide (seg ≠ [] ∧ seg ≠ ['.']))).reverse ++ acc := by
  induction segs generalizing acc with
  | nil => rfl
  | cons seg rest ih =>
    have hrest : ['.', '.'] ∉ rest := fun hm => h (List.mem_cons_of_mem _ hm)
    have hseg : seg ≠ ['.', '.'] := fun he => h (he ▸ List.mem_cons_self _ _)
    rw [List.foldl_cons, ih hrest]
    by_cases hp : seg = [] ∨ seg = ['.']
    · have hstep : cleanStep rooted acc seg = acc := by
        unfold cleanStep; rw [if_pos hp]
      have hf : decide (seg ≠ [] ∧ seg ≠ ['.']) = false := by
        rw [decide_eq_false_iff_not]; tauto
      rw [hstep, List.filter_cons, if_neg (by rw [hf]; exact Bool.false_ne_true)]
    · have hstep : cleanStep rooted acc seg = seg :: acc := by
        unfold cleanStep; rw [if_neg hp, if_neg hseg]
      have hf : decide (seg ≠ [] ∧ seg ≠ ['.']) = true := by
        rw [decide_eq_true_iff]; tauto
      rw [hstep, List.filter_cons, if_pos hf, List.reverse_cons, List.append_assoc]
      rfl

theorem Clean_of_no_dotdot (p : GoString) (hp : p ≠ []) (h : ['.', '.'] ∉ Split p) :
    Clean p =
      if p.head? = some '/' then '/' :: ['/'].intercalate (properSegs p)
      else if properSegs p = [] then ['.'] else ['/'].intercalate (properSegs p) := by
  unfold Clean
  rw [if_neg hp]
  simp only [foldl_cleanStep _ _ h, List.append_nil, List.reverse_reverse, decide_eq_true_eq]
  rfl

theorem mem_properSegs (s seg : GoString) (h : seg ∈ properSegs s) :
    seg ∈ Split s ∧ seg ≠ [] := by
  unfold properSegs at h
  rw [List.mem_filter, decide_eq_true_iff] at h
  exact ⟨h.1, h.2.1⟩

theorem head_intercalate (segs : List GoString) (hne : segs ≠ [])
    (h : ∀ seg ∈ segs, seg ≠ [] ∧ '/' ∉ seg) :
    ∀ rest, ['/'].intercalate segs ≠ '/' :: rest := by
  intro rest heq
  cases segs with
  | nil => exact hne rfl
  | cons x xs =>
    obtain ⟨hx, hsep⟩ := h x (List.mem_cons_self _ _)
    cases x with
    | nil => exact hx rfl
    | cons c x =>
      have hc : c ≠ '/' := fun hc => hsep (hc ▸ List.mem_cons_self _ _)
      cases xs with
      | nil =>
        simp [List.intercalate] at heq
        exact hc heq.1
      | cons y ys =>
        simp [List.intercalate] at heq
        exact hc heq.1


theorem stripSlash_Clean (p : GoString) (hp : p ≠ []) (h : ['.', '.'] ∉ Split p) :
    stripSlash (Clean p) =
      if properSegs p = [] then (if p.head? = some '/' then [] else ['.'])
      else ['/'].intercalate (properSegs p) := by
  rw [Clean_of_no_dotdot p hp h]
  by_cases hr : p.head? = some '/'
  · rw [if_pos hr]
    by_cases hs : properSegs p = []
    · rw [if_pos hs, if_pos hr, hs]; rfl
    · rw [if_neg hs]; rfl
  · rw [if_neg hr]
    by_cases hs : properSegs p = []
    · rw [if_pos hs, if_pos hs, if_neg hr]; rfl
    · rw [if_neg hs, if_neg hs]
      have hh := head_intercalate (properSegs p) hs (fun seg hseg =>
        ⟨(mem_properSegs p seg hseg).2,
         not_sep_mem_of_mem_Split p seg (mem_properSegs p seg hseg).1⟩)
      cases hi : ['/'].intercalate (properSegs p) with
      | nil => rfl
      | cons c rest =>
        have hc : c ≠ '/' := fun hc => hh rest (by rw [hi, hc])
        unfold stripSlash
        split
        · rename_i heq
          injection heq with h1 h2
          exact absurd h1 hc
        · rfl

theorem properSegs_nil : properSegs [] = [] := rfl

theorem properSegs_append_sep (a b : GoString) :
    properSegs (a ++ '/' :: b) = properSegs a ++ properSegs b := by
  unfold properSegs
  rw [Split_append_sep, List.filter_append]

/-- The canonical path of `name` under the prefix `pre`, when neither has a
`..` element. -/
theorem canonicalPath_eq (pre name : GoString)
    (hP : ['.', '.'] ∉ Split pre) (hn : ['.', '.'] ∉ Split name) :
    (properSegs pre ++ properSegs name ≠ [] →
      canonicalPath pre name = ['/'].intercalate (properSegs pre ++ properSegs name)) ∧
    (properSegs pre ++ properSegs name = [] →
      canonicalPath pre name = [] ∨ canonicalPath pre name = ['.']) := by
  have key : ∀ p : GoString, p ≠ [] → ['.', '.'] ∉ Split p →
      properSegs p = properSegs pre ++ properSegs name → Join pre name = Clean p →
      (properSegs pre ++ properSegs name ≠ [] →
        canonicalPath pre name = ['/'].intercalate (properSegs pre ++ properSegs name)) ∧
      (properSegs pre ++ properSegs name = [] →
        canonicalPath pre name = [] ∨ canonicalPath pre name = ['.']) := by
    intro p hp hdd hsegs hjoin
    unfold canonicalPath
    rw [hjoin, stripSlash_Clean p hp hdd, hsegs]
    constructor
    · intro hne
      rw [if_neg hne]
    · intro he
      rw [if_pos he]
      by_cases hr : p.head? = some '/'
      · rw [if_pos hr]; exact Or.inl rfl
      · rw [if_neg hr]; exact Or.inr rfl
  by_cases ha : pre = []
  · by_cases hb : name = []
    · subst ha; subst hb
      exact ⟨fun h => absurd rfl h, fun _ => Or.inl rfl⟩
    · subst ha
      exact key name hb hn (by rw [properSegs_nil, List.nil_append])
        (by unfold Join; rw [if_neg (fun h => hb h.2), if_pos rfl])
  · by_cases hb : name = []
    · subst hb
      exact key pre ha hP (by rw [properSegs_nil, List.append_nil])
        (by unfold Join; rw [if_neg (fun h => ha h.1), if_neg ha, if_pos rfl])
    · refine key (pre ++ '/' :: name) (by simp) ?_ (properSegs_append_sep pre name) ?_
      · rw [Split_append_sep, List.mem_append]
        rintro (h | h)
        · exact hP h
        · exact hn h
      · unfold Join
        rw [if_neg (fun h => ha h.1), if_neg ha, if_neg hb]

theorem Split_intercalate_properSegs (pre name : GoString)
    (hne : properSegs pre ++ properSegs name ≠ []) :
    Split (['/'].intercalate (properSegs pre ++ properSegs name)) =
      properSegs pre ++ properSegs name := by
  unfold Split
  refine List.splitOn_intercalate _ '/' ?_ hne
  intro l hl
  rcases List.mem_append.mp hl with h | h
  · exact not_sep_mem_of_mem_Split pre l (mem_properSegs pre l h).1
  · exact not_sep_mem_of_mem_Split name l (mem_properSegs name l h).1

/-! ## Maps -/

theorem mapGet_mapSet_self {β : Type} (m : List (GoString × β)) (k : GoString) (v : β) :
    mapGet (mapSet m k v) k = some v := by
  induction m with
  | nil => simp [mapSet, mapGet]
  | cons e m ih =>
    obtain ⟨k1, w⟩ := e
    by_cases h : k1 = k
    · simp [mapSet, mapGet, h]
    · simp [mapSet, mapGet, h, ih]

theorem mapGet_mapSet_ne {β : Type} (m : List (GoString × β)) (k k2 : GoString) (v : β)
    (hne : k2 ≠ k) : mapGet (mapSet m k v) k2 = mapGet m k2 := by
  induction m with
  | nil =>
    show (if k = k2 then some v else none) = none
    rw [if_neg (fun e => hne e.symm)]
  | cons e m ih =>
    obtain ⟨k1, w⟩ := e
    by_cases h : k1 = k
    · subst h
      show mapGet (if k1 = k1 then (k1, v) :: m else (k1, w) :: mapSet m k1 v) k2 = _
      rw [if_pos rfl]
      show (if k1 = k2 then some v else mapGet m k2) = (if k1 = k2 then some w else mapGet m k2)
      rw [if_neg (fun e => hne e.symm), if_neg (fun e => hne e.symm)]
    · show mapGet (if k1 = k then (k, v) :: m else (k1, w) :: mapSet m k v) k2 = _
      rw [if_neg h]
      show (if k1 = k2 then some w else mapGet (mapSet m k v) k2) =
        (if k1 = k2 then some w else mapGet m k2)
      rw [ih]

theorem mapKeys_cons {β : Type} (k : GoString) (v : β) (m : List (GoString × β)) :
    mapKeys ((k, v) :: m) = k :: mapKeys m := rfl

theorem mapKeys_mapSet {β : Type} (m : List (GoString × β)) (k : GoString) (v : β) :
    mapKeys (mapSet m k v) = if k ∈ mapKeys m then mapKeys m else mapKeys m ++ [k] := by
  induction m with
  | nil =>
    show [k] = if k ∈ ([] : List GoString) then [] else [] ++ [k]
    rw [if_neg (List.not_mem_nil k)]
    rfl
  | cons e m ih =>
    obtain ⟨k1, w⟩ := e
    by_cases h : k1 = k
    · subst h
      show mapKeys (if k1 = k1 then (k1, v) :: m else (k1, w) :: mapSet m k1 v) = _
      rw [if_pos rfl, mapKeys_cons, mapKeys_cons, if_pos (List.mem_cons_self _ _)]
    · show mapKeys (if k1 = k then (k, v) :: m else (k1, w) :: mapSet m k v) = _
      rw [if_neg h, mapKeys_cons, mapKeys_cons, ih]
      by_cases hm : k ∈ mapKeys m
      · rw [if_pos hm, if_pos (List.mem_cons_of_mem _ hm)]
      · have hm2 : k ∉ k1 :: mapKeys m := by
          intro hmem
          rcases List.mem_cons.mp hmem with h1 | h1
          · exact h h1.symm
          · exact hm h1
        rw [if_neg hm, if_neg hm2]
        rfl

theorem mapGet_isSome_iff {β : Type} (m : List (GoString × β)) (k : GoString) :
    (mapGet m k).isSome = true ↔ k ∈ mapKeys m := by
  induction m with
  | nil =>
    constructor
    · intro h; cases h
    · intro h; exact absurd h (List.not_mem_nil k)
  | cons e m ih =>
    obtain ⟨k1, w⟩ := e
    rw [mapKeys_cons, List.mem_cons]
    show (if k1 = k then some w else mapGet m k).isSome = true ↔ _
    by_cases h : k1 = k
    · rw [if_pos h]
      exact ⟨fun _ => Or.inl h.symm, fun _ => rfl⟩
    · rw [if_neg h, ih]
      constructor
      · intro hm; exact Or.inr hm
      · rintro (h1 | h1)
        · exact absurd h1.symm h
        · exact h1

theorem mapKeys_mapSet_nodup {β : Type} (m : List (GoString × β)) (k : GoString) (v : β)
    (h : (mapKeys m).Nodup) : (mapKeys (mapSet m k v)).Nodup := by
  rw [mapKeys_mapSet]
  by_cases hm : k ∈ mapKeys m
  · rw [if_pos hm]; exact h
  · rw [if_neg hm]
    exact List.Nodup.append h (List.nodup_singleton k)
      (by
        intro x hx hx2
        rw [List.mem_singleton] at hx2
        exact hm (hx2 ▸ hx))

/-! ## `Add` and `walk` -/

theorem Children_mk (a : Asset) (cs : List (GoString × assetTree)) :
    (assetTree.mk a cs).Children = cs := rfl

theorem Asset_mk (a : Asset) (cs : List (GoString × assetTree)) :
    (assetTree.mk a cs).Asset = a := rfl

theorem Add_nil (node : assetTree) (a : Asset) : node.Add [] a = .mk a node.Children := by
  cases node; rfl

theorem Add_cons (node : assetTree) (name : GoString) (route : List GoString) (a : Asset) :
    node.Add (name :: route) a =
      .mk node.Asset (mapSet node.Children name ((node.child name).Add route a)) := by
  cases node; rfl

theorem walk_nil (node : assetTree) : node.walk [] = some node := by
  cases node; rfl

theorem walk_cons (node : assetTree) (name : GoString) (route : List GoString) :
    node.walk (name :: route) =
      match mapGet node.Children name with
      | none => none
      | some sub => sub.walk route := by
  cases node; rfl

theorem walk_new_cons (name : GoString) (route : List GoString) :
    newAssetTree.walk (name :: route) = none := rfl

theorem walk_new_getD (route : List GoString) :
    (newAssetTree.walk route).getD newAssetTree = newAssetTree := by
  cases route with
  | nil => rfl
  | cons x r => rfl

theorem child_walk (node : assetTree) (name : GoString) (route : List GoString) :
    ((node.child name).walk route).getD newAssetTree =
      ((node.walk (name :: route)).getD newAssetTree) := by
  rw [walk_cons]
  unfold assetTree.child
  cases mapGet node.Children name with
  | none => exact walk_new_getD route
  | some sub => rfl

/-- The node at a prefix of the added route: the old node there, or a new one,
with the rest of the route added to it. -/
theorem walk_Add_on_route (p : List GoString) : ∀ (t : assetTree) (r : List GoString)
    (a : Asset), p <+: r →
    (t.Add r a).walk p =
      some (((t.walk p).getD newAssetTree).Add (r.drop p.length) a) := by
  induction p with
  | nil =>
    intro t r a _
    rw [walk_nil, walk_nil]
    rfl
  | cons x p ih =>
    intro t r a hpre
    cases r with
    | nil => exact absurd hpre (by simp)
    | cons y r =>
      have hxy : x = y ∧ p <+: r := by simpa using hpre
      obtain ⟨hxy, hpr⟩ := hxy
      subst hxy
      rw [Add_cons, walk_cons, Children_mk, mapGet_mapSet_self]
      simp only
      rw [ih (t.child x) r a hpr, child_walk]
      rfl

/-- A node that is not on the added route is not touched. -/
theorem walk_Add_off_route (r : List GoString) : ∀ (t : assetTree) (p : List GoString)
    (a : Asset), ¬ p <+: r → (t.Add r a).walk p = t.walk p := by
  induction r with
  | nil =>
    intro t p a hpre
    cases p with
    | nil => exact absurd (List.prefix_refl _) hpre
    | cons x p =>
      rw [Add_nil, walk_cons, walk_cons, Children_mk]
  | cons y r ih =>
    intro t p a hpre
    cases p with
    | nil => exact absurd (List.nil_prefix) hpre
    | cons x p =>
      rw [Add_cons, walk_cons, walk_cons, Children_mk]
      by_cases hxy : x = y
      · subst hxy
        have hpr : ¬ p <+: r := fun h => hpre (by simpa using h)
        rw [mapGet_mapSet_self]
        simp only
        rw [ih (t.child x) p a hpr]
        unfold assetTree.child
        cases mapGet t.Children x with
        | none =>
          simp only
          cases p with
          | nil => exact absurd (List.nil_prefix) hpr
          | cons z p => rfl
        | some sub => rfl
      · rw [mapGet_mapSet_ne _ _ _ _ hxy]


theorem nodeAsset_Add (t : assetTree) (r p : List GoString) (a : Asset) :
    nodeAsset (t.Add r a) p = if p = r then a else nodeAsset t p := by
  unfold nodeAsset
  by_cases hpre : p <+: r
  · rw [walk_Add_on_route p t r a hpre, Option.getD_some]
    by_cases hpr : p = r
    · subst hpr
      rw [if_pos rfl, List.drop_length, Add_nil, Asset_mk]
    · rw [if_neg hpr]
      obtain ⟨q, hq⟩ := hpre
      subst hq
      rw [List.drop_left]
      cases q with
      | nil => exact absurd (List.append_nil p).symm hpr
      | cons x q => rw [Add_cons, Asset_mk]
  · have hne : p ≠ r := by
      intro h
      subst h
      exact hpre (List.prefix_refl p)
    rw [walk_Add_off_route r t p a hpre, if_neg hne]

theorem walk_Add_isSome (t : assetTree) (r p : List GoString) (a : Asset) :
    ((t.Add r a).walk p).isSome = true ↔ ((t.walk p).isSome = true ∨ p <+: r) := by
  by_cases hpre : p <+: r
  · rw [walk_Add_on_route p t r a hpre]
    exact ⟨fun _ => Or.inr hpre, fun _ => rfl⟩
  · rw [walk_Add_off_route r t p a hpre]
    exact ⟨fun h => Or.inl h, fun h => h.resolve_right hpre⟩

theorem addAll_nil (t : assetTree) : addAll t [] = t := rfl

theorem addAll_cons (t : assetTree) (b : Asset) (rest : List Asset) :
    addAll t (b :: rest) = addAll (t.Add (Split b.Name) b) rest := rfl

theorem addAll_append (t : assetTree) (l1 l2 : List Asset) :
    addAll t (l1 ++ l2) = addAll (addAll t l1) l2 := by
  unfold addAll
  rw [List.foldl_append]

theorem buildTree_eq (toc : List Asset) : buildTree toc = addAll newAssetTree toc := rfl

theorem nodeAsset_addAll_of_not_mem (toc : List Asset) : ∀ (t : assetTree) (p : List GoString),
    (∀ c ∈ toc, Split c.Name ≠ p) → nodeAsset (addAll t toc) p = nodeAsset t p := by
  induction toc with
  | nil => intro t p _; rfl
  | cons b rest ih =>
    intro t p h
    rw [addAll_cons, ih _ p (fun c hc => h c (List.mem_cons_of_mem _ hc)), nodeAsset_Add,
      if_neg (fun e => h b (List.mem_cons_self _ _) e.symm)]

theorem nodeAsset_addAll (toc : List Asset) : ∀ (t : assetTree),
    (toc.map Asset.Name).Nodup → ∀ a ∈ toc, nodeAsset (addAll t toc) (Split a.Name) = a := by
  induction toc with
  | nil => intro t _ a ha; exact absurd ha (List.not_mem_nil a)
  | cons b rest ih =>
    intro t hd a ha
    rw [List.map_cons, List.nodup_cons] at hd
    rw [addAll_cons]
    rcases List.mem_cons.mp ha with hab | hab
    · subst hab
      rw [nodeAsset_addAll_of_not_mem rest _ _ ?_, nodeAsset_Add, if_pos rfl]
      intro c hc hcn
      exact hd.1 (List.mem_map.mpr ⟨c, hc, Split_injective _ _ hcn⟩)
    · exact ih _ hd.2 a hab

theorem walk_addAll_isSome (toc : List Asset) : ∀ (t : assetTree) (p : List GoString),
    ((addAll t toc).walk p).isSome = true ↔
      ((t.walk p).isSome = true ∨ ∃ a ∈ toc, p <+: Split a.Name) := by
  induction toc with
  | nil =>
    intro t p
    rw [addAll_nil]
    constructor
    · intro h; exact Or.inl h
    · rintro (h | ⟨a, ha, _⟩)
      · exact h
      · exact absurd ha (List.not_mem_nil a)
  | cons b rest ih =>
    intro t p
    rw [addAll_cons, ih, walk_Add_isSome]
    constructor
    · rintro ((h | h) | ⟨a, ha, hp⟩)
      · exact Or.inl h
      · exact Or.inr ⟨b, List.mem_cons_self _ _, h⟩
      · exact Or.inr ⟨a, List.mem_cons_of_mem _ ha, hp⟩
    · rintro (h | ⟨a, ha, hp⟩)
      · exact Or.inl (Or.inl h)
      · rcases List.mem_cons.mp ha with hab | hab
        · subst hab
          exact Or.inl (Or.inr hp)
        · exact Or.inr ⟨a, hab, hp⟩

/-- The node of an inserted name exists and carries the inserted asset. -/
theorem addAll_lookup (t : assetTree) (toc : List Asset) (hd : (toc.map Asset.Name).Nodup)
    (a : Asset) (ha : a ∈ toc) :
    ∃ node, (addAll t toc).walk (Split a.Name) = some node ∧ node.Asset = a := by
  have hsome := (walk_addAll_isSome toc t (Split a.Name)).mpr
    (Or.inr ⟨a, ha, List.prefix_refl _⟩)
  have hasset := nodeAsset_addAll toc t hd a ha
  unfold nodeAsset at hasset
  cases hw : (addAll t toc).walk (Split a.Name) with
  | none => rw [hw] at hsome; cases hsome
  | some node =>
    rw [hw] at hasset
    exact ⟨node, rfl, hasset⟩

/-- C9: for a table of contents with pairwise distinct names, in the tree that
`writeTOCTree` builds, walking the segments of any inserted name from the root
finds a child at every step and ends at a node whose asset is the record
inserted under that name; this already holds after any initial part of the
table that contains the record, so later insertions do not change it. -/
theorem buildTree_lookup (toc : List Asset) (hd : (toc.map Asset.Name).Nodup)
    (a : Asset) (ha : a ∈ toc) :
    (∃ node, (buildTree toc).walk (Split a.Name) = some node ∧ node.Asset = a) ∧
    (∀ l1 l2 : List Asset, toc = l1 ++ l2 → a ∈ l1 →
      ∃ node, (buildTree l1).walk (Split a.Name) = some node ∧ node.Asset = a) := by
  refine ⟨addAll_lookup newAssetTree toc hd a ha, ?_⟩
  intro l1 l2 h12 ha1
  refine addAll_lookup newAssetTree l1 ?_ a ha1
  rw [h12, List.map_append] at hd
  exact (List.nodup_append.mp hd).1

/-- Witness of C9: `data/img/a.png` in the documented example. -/
theorem buildTree_lookup_witness :
    ((exampleToc.map Asset.Name).Nodup ∧
      (⟨"data/img/a.png".toList, "dataImgAPng".toList⟩ : Asset) ∈ exampleToc) ∧
    ((∃ node, (buildTree exampleToc).walk (Split "data/img/a.png".toList) = some node ∧
        node.Asset = ⟨"data/img/a.png".toList, "dataImgAPng".toList⟩) ∧
     (∀ l1 l2 : List Asset, exampleToc = l1 ++ l2 →
        (⟨"data/img/a.png".toList, "dataImgAPng".toList⟩ : Asset) ∈ l1 →
        ∃ node, (buildTree l1).walk (Split "data/img/a.png".toList) = some node ∧
          node.Asset = ⟨"data/img/a.png".toList, "dataImgAPng".toList⟩)) :=
  ⟨⟨by decide, by decide⟩,
   buildTree_lookup exampleToc (by decide) ⟨"data/img/a.png".toList, "dataImgAPng".toList⟩
     (by decide)⟩

/-! ## The children listed by the generated `AssetDir` -/

theorem walk_append (p : List GoString) : ∀ (t : assetTree) (q : List GoString),
    t.walk (p ++ q) = (t.walk p).bind (fun node => node.walk q) := by
  induction p with
  | nil => intro t q; rw [List.nil_append, walk_nil]; rfl
  | cons x p ih =>
    intro t q
    rw [List.cons_append, walk_cons, walk_cons]
    cases mapGet t.Children x with
    | none => rfl
    | some sub => exact ih sub q

theorem walk_single_isSome (node : assetTree) (s : GoString) :
    (node.walk [s]).isSome = true ↔ s ∈ mapKeys node.Children := by
  rw [walk_cons, ← mapGet_isSome_iff]
  cases mapGet node.Children s with
  | none => exact Iff.rfl
  | some sub =>
    show (sub.walk []).isSome = true ↔ (some sub).isSome = true
    rw [walk_nil]

theorem walk_new_append_single (p : List GoString) (s : GoString) :
    newAssetTree.walk (p ++ [s]) = none := by
  cases p with
  | nil => rfl
  | cons x p => rfl

theorem Children_Add_nodup (sub : assetTree) (r : List GoString) (a : Asset)
    (h : (mapKeys sub.Children).Nodup) : (mapKeys (sub.Add r a).Children).Nodup := by
  cases r with
  | nil => rw [Add_nil, Children_mk]; exact h
  | cons x r => rw [Add_cons, Children_mk]; exact mapKeys_mapSet_nodup _ _ _ h

theorem keysNodup_Add (t : assetTree) (r : List GoString) (a : Asset)
    (h : ∀ p node, t.walk p = some node → (mapKeys node.Children).Nodup) :
    ∀ p node, (t.Add r a).walk p = some node → (mapKeys node.Children).Nodup := by
  intro p node hw
  by_cases hpre : p <+: r
  · rw [walk_Add_on_route p t r a hpre] at hw
    injection hw with hw
    subst hw
    apply Children_Add_nodup
    cases hp : t.walk p with
    | none => exact List.nodup_nil
    | some n => exact h p n hp
  · rw [walk_Add_off_route r t p a hpre] at hw
    exact h p node hw

theorem keysNodup_addAll (toc : List Asset) : ∀ (t : assetTree),
    (∀ p node, t.walk p = some node → (mapKeys node.Children).Nodup) →
    ∀ p node, (addAll t toc).walk p = some node → (mapKeys node.Children).Nodup := by
  induction toc with
  | nil => intro t h; exact h
  | cons b rest ih =>
    intro t h
    rw [addAll_cons]
    exact ih _ (keysNodup_Add t _ b h)

theorem keysNodup_new :
    ∀ p node, newAssetTree.walk p = some node → (mapKeys node.Children).Nodup := by
  intro p node hw
  cases p with
  | nil =>
    rw [walk_nil] at hw
    injection hw with hw
    subst hw
    exact List.nodup_nil
  | cons x p => rw [walk_new_cons] at hw; cases hw

/-! ## The generated tree with plain keys -/

theorem plainTree_Children (env : GoString → Except GoError asset) (t : assetTree) :
    (plainTree env t).Children = plainTreeChildren env t.Children := by
  cases t; rw [plainTree]; rfl

theorem plainTree_Func (env : GoString → Except GoError asset) (t : assetTree) :
    (plainTree env t).Func = funcOrNil env t.Asset := by
  cases t; rw [plainTree]; rfl

theorem mapGet_plainTreeChildren (env : GoString → Except GoError asset)
    (cs : List (GoString × assetTree)) (k : GoString) :
    mapGet (plainTreeChildren env cs) k = (mapGet cs k).map (plainTree env) := by
  induction cs with
  | nil => rw [plainTreeChildren]; rfl
  | cons e cs ih =>
    obtain ⟨k1, t⟩ := e
    rw [plainTreeChildren]
    show (if k1 = k then some (plainTree env t) else mapGet (plainTreeChildren env cs) k) =
      (if k1 = k then some t else mapGet cs k).map (plainTree env)
    by_cases h : k1 = k
    · rw [if_pos h, if_pos h]; rfl
    · rw [if_neg h, if_neg h, ih]

theorem mapKeys_plainTreeChildren (env : GoString → Except GoError asset)
    (cs : List (GoString × assetTree)) :
    mapKeys (plainTreeChildren env cs) = mapKeys cs := by
  induction cs with
  | nil => rw [plainTreeChildren]; rfl
  | cons e cs ih =>
    obtain ⟨k1, t⟩ := e
    rw [plainTreeChildren, mapKeys_cons, mapKeys_cons, ih]

theorem bintree_walk_cons (node : bintree) (p : GoString) (pathList : List GoString) :
    node.walk (p :: pathList) =
      match mapGet node.Children p with
      | none => none
      | some sub => sub.walk pathList := by
  cases node; rfl

theorem bintree_walk_nil (node : bintree) : node.walk [] = some node := by
  cases node; rfl

theorem walk_plainTree (env : GoString → Except GoError asset) (p : List GoString) :
    ∀ t : assetTree, (plainTree env t).walk p = (t.walk p).map (plainTree env) := by
  induction p with
  | nil => intro t; rw [bintree_walk_nil, walk_nil]; rfl
  | cons x p ih =>
    intro t
    rw [bintree_walk_cons, walk_cons, plainTree_Children, mapGet_plainTreeChildren]
    cases mapGet t.Children x with
    | none => rfl
    | some sub => exact ih sub

theorem ReplaceBackslash_of_not_mem (d : GoString) (h : '\\' ∉ d) : ReplaceBackslash d = d := by
  unfold ReplaceBackslash
  induction d with
  | nil => rfl
  | cons c d ih =>
    have hc : c ≠ '\\' := fun e => h (e ▸ List.mem_cons_self _ _)
    rw [List.map_cons, if_neg hc, ih (fun hm => h (List.mem_cons_of_mem _ hm))]

/-- The generated `AssetDir` on a path without backslash walks `dirSegs`. -/
theorem AssetDir_eq (order : MapOrder) (root : bintree) (d : GoString) (h : '\\' ∉ d) :
    Generated.AssetDir order root d =
      match root.walk (dirSegs d) with
      | none => .error (.errorString (Generated.notFoundText d))
      | some node =>
        if node.Func.isSome then .error (.errorString (Generated.notFoundText d))
        else .ok (order.keys (mapKeys node.Children)) := by
  unfold Generated.AssetDir dirSegs
  rw [ReplaceBackslash_of_not_mem d h]
  by_cases hl : d.length ≠ 0
  · simp only [if_pos hl]
  · simp only [if_neg hl, bintree_walk_nil]


/-- The children that the generated tree with the keys kept lists for a
directory of the built tree. -/
theorem AssetDir_buildTree (order : MapOrder) (env : GoString → Except GoError asset)
    (toc : List Asset) (d : GoString) (hbs : '\\' ∉ d)
    (hex : ((buildTree toc).walk (dirSegs d)).isSome = true)
    (hnot : ∀ c ∈ toc, Split c.Name ≠ dirSegs d) :
    ∃ rv, Generated.AssetDir order (plainTree env (buildTree toc)) d = .ok rv ∧ rv.Nodup ∧
      ∀ s, s ∈ rv ↔ ∃ a ∈ toc, ∃ rest, Split a.Name = dirSegs d ++ s :: rest := by
  cases hw : (buildTree toc).walk (dirSegs d) with
  | none => rw [hw] at hex; cases hex
  | some node =>
    have hasset : node.Asset = Asset.zero := by
      have h1 := nodeAsset_addAll_of_not_mem toc newAssetTree (dirSegs d) hnot
      rw [← buildTree_eq] at h1
      unfold nodeAsset at h1
      rw [hw, walk_new_getD] at h1
      exact h1
    have hfunc : (plainTree env node).Func.isSome = false := by
      rw [plainTree_Func, hasset]
      rfl
    have hnodup : (mapKeys node.Children).Nodup :=
      keysNodup_addAll toc newAssetTree keysNodup_new (dirSegs d) node
        (by rw [← buildTree_eq]; exact hw)
    refine ⟨order.keys (mapKeys node.Children), ?_, ?_, ?_⟩
    · rw [AssetDir_eq order _ d hbs, walk_plainTree, hw]
      show (if (plainTree env node).Func.isSome = true then _ else _) = _
      rw [if_neg (by rw [hfunc]; exact Bool.false_ne_true), plainTree_Children,
        mapKeys_plainTreeChildren]
    · exact (order.perm _).nodup_iff.mpr hnodup
    · intro s
      rw [(order.perm _).mem_iff, ← walk_single_isSome]
      have hws : (buildTree toc).walk (dirSegs d ++ [s]) = node.walk [s] := by
        rw [walk_append, hw]; rfl
      rw [← hws, buildTree_eq, walk_addAll_isSome, walk_new_append_single]
      constructor
      · rintro (h | ⟨a, ha, q, hq⟩)
        · cases h
        · exact ⟨a, ha, q, by rw [← hq, List.append_assoc]; rfl⟩
      · rintro ⟨a, ha, rest, hr⟩
        exact Or.inr ⟨a, ha, rest, by rw [hr, List.append_assoc]; rfl⟩

/-! ## When the generated `AssetDir` fails -/

theorem AssetDir_unfold (order : MapOrder) (root : bintree) (name : GoString) :
    Generated.AssetDir order root name =
      match Generated.resolve root name with
      | none => .error (.errorString (Generated.notFoundText name))
      | some node =>
        if node.Func.isSome then .error (.errorString (Generated.notFoundText name))
        else .ok (order.keys (mapKeys node.Children)) := rfl

theorem bintree_walk_eq_none_iff (segs : List GoString) : ∀ root : bintree,
    root.walk segs = none ↔
      ∃ (pre : List GoString) (seg : GoString) (post : List GoString) (node : bintree),
        segs = pre ++ seg :: post ∧ root.walk pre = some node ∧
        mapGet node.Children seg = none := by
  induction segs with
  | nil =>
    intro root
    rw [bintree_walk_nil]
    constructor
    · intro h; cases h
    · rintro ⟨pre, seg, post, node, h, _⟩
      cases pre <;> cases h
  | cons x segs ih =>
    intro root
    rw [bintree_walk_cons]
    cases hx : mapGet root.Children x with
    | none =>
      simp only [true_iff]
      exact ⟨[], x, segs, root, rfl, bintree_walk_nil root, hx⟩
    | some sub =>
      simp only
      rw [ih sub]
      constructor
      · rintro ⟨pre, seg, post, node, h1, h2, h3⟩
        refine ⟨x :: pre, seg, post, node, by rw [h1]; rfl, ?_, h3⟩
        rw [bintree_walk_cons, hx]
        exact h2
      · rintro ⟨pre, seg, post, node, h1, h2, h3⟩
        cases pre with
        | nil =>
          rw [bintree_walk_nil] at h2
          injection h2 with h2
          subst h2
          rw [List.nil_append] at h1
          injection h1 with h1a h1b
          subst h1a
          rw [hx] at h3
          cases h3
        | cons y pre =>
          rw [List.cons_append] at h1
          injection h1 with h1a h1b
          subst h1a
          rw [bintree_walk_cons, hx] at h2
          exact ⟨pre, seg, post, node, h1b, h2, h3⟩

/-- C11: the generated `AssetDir(name)` returns an error if and only if `name`
is non-empty and some segment of it, after every backslash is replaced by `/`,
has no matching child at its depth, or the node that `name` resolves to has a
function (is a file); in every other case it returns a nil error with the names
of the children of the resolved node, in the order the map is visited. For the
documented example `data` and `data/img` succeed, `data/foo.txt` and `notexist`
fail. -/
theorem AssetDir_error_iff (order : MapOrder) (root : bintree) (name : GoString) :
    (errIsNil (Generated.AssetDir order root name) = false ↔
      ((name ≠ [] ∧
          ∃ (pre : List GoString) (seg : GoString) (post : List GoString) (node : bintree),
            Split (ReplaceBackslash name) = pre ++ seg :: post ∧ root.walk pre = some node ∧
            mapGet node.Children seg = none) ∨
        ∃ node, Generated.resolve root name = some node ∧ node.Func.isSome = true)) ∧
    (∀ node, Generated.resolve root name = some node → node.Func.isSome = false →
      Generated.AssetDir order root name = .ok (order.keys (mapKeys node.Children))) ∧
    (errIsNil (Generated.AssetDir order exampleTree "data".toList) = true ∧
      errIsNil (Generated.AssetDir order exampleTree "data/img".toList) = true ∧
      errIsNil (Generated.AssetDir order exampleTree "data/foo.txt".toList) = false ∧
      errIsNil (Generated.AssetDir order exampleTree "notexist".toList) = false) := by
  refine ⟨?_, ?_, ⟨rfl, rfl, rfl, rfl⟩⟩
  · rw [AssetDir_unfold]
    cases hr : Generated.resolve root name with
    | none =>
      have hlen : name.length ≠ 0 := by
        intro h0
        unfold Generated.resolve at hr
        rw [if_neg (not_not.mpr h0)] at hr
        cases hr
      have hw : root.walk (Split (ReplaceBackslash name)) = none := by
        unfold Generated.resolve at hr
        rw [if_pos hlen] at hr
        exact hr
      constructor
      · intro _
        exact Or.inl ⟨fun h => hlen (by rw [h]; rfl), (bintree_walk_eq_none_iff _ root).mp hw⟩
      · intro _; rfl
    | some node =>
      have hw : name.length ≠ 0 → root.walk (Split (ReplaceBackslash name)) = some node := by
        intro hlen
        unfold Generated.resolve at hr
        rw [if_pos hlen] at hr
        exact hr
      show errIsNil (if node.Func.isSome = true then
          (.error (.errorString (Generated.notFoundText name)) :
            Except GoError (List GoString))
        else .ok (order.keys (mapKeys node.Children))) = false ↔ _
      by_cases hf : node.Func.isSome = true
      · rw [if_pos hf]
        exact ⟨fun _ => Or.inr ⟨node, rfl, hf⟩, fun _ => rfl⟩
      · rw [if_neg hf]
        constructor
        · intro h; cases h
        · rintro (⟨hne, hex⟩ | ⟨n2, hn2, hf2⟩)
          · have hlen : name.length ≠ 0 := fun h0 => hne (List.length_eq_zero.mp h0)
            have hnone := (bintree_walk_eq_none_iff _ root).mpr hex
            rw [hw hlen] at hnone
            cases hnone
          · injection hn2 with hn2
            subst hn2
            exact absurd hf2 hf
  · intro node hr hf
    rw [AssetDir_unfold, hr]
    show (if node.Func.isSome = true then _ else _) = _
    rw [if_neg (by rw [hf]; exact Bool.false_ne_true)]

/-- Every failure of `AssetDir` is the same `not found` error. -/
theorem AssetDir_error_text (order : MapOrder) (root : bintree) (name : GoString) (e : GoError)
    (h : Generated.AssetDir order root name = .error e) :
    e = .errorString (Generated.notFoundText name) := by
  rw [AssetDir_unfold] at h
  cases hr : Generated.resolve root name with
  | none =>
    rw [hr] at h
    injection h with h
    exact h.symm
  | some node =>
    rw [hr] at h
    by_cases hf : node.Func.isSome = true
    · have h2 : (if node.Func.isSome = true then
          (.error (.errorString (Generated.notFoundText name)) :
            Except GoError (List GoString))
        else .ok (order.keys (mapKeys node.Children))) = .error e := h
      rw [if_pos hf] at h2
      injection h2 with h2
      exact h2.symm
    · have h2 : (if node.Func.isSome = true then
          (.error (.errorString (Generated.notFoundText name)) :
            Except GoError (List GoString))
        else .ok (order.keys (mapKeys node.Children))) = .error e := h
      rw [if_neg hf] at h2
      cases h2


/-- C12, as amended: whenever the generated `AssetDir` fails, its error is
`Asset <name> not found`, whether the path resolves to no node or to a leaf: the
two failures are the same error, not two distinguishable ones. -/
theorem AssetDir_leaf_and_missing_same_error (order : MapOrder) (root : bintree)
    (name : GoString) (e : GoError) (h : Generated.AssetDir order root name = .error e) :
    e = .errorString (Generated.notFoundText name) ∧
    (Generated.resolve root name = none ∨
      ∃ node, Generated.resolve root name = some node ∧ node.Func.isSome = true) := by
  refine ⟨AssetDir_error_text order root name e h, ?_⟩
  cases hr : Generated.resolve root name with
  | none => exact Or.inl rfl
  | some node =>
    refine Or.inr ⟨node, rfl, ?_⟩
    by_contra hf
    rw [AssetDir_unfold, hr] at h
    have h2 : (if node.Func.isSome = true then
        (.error (.errorString (Generated.notFoundText name)) :
          Except GoError (List GoString))
      else .ok (order.keys (mapKeys node.Children))) = .error e := h
    rw [if_neg hf] at h2
    cases h2

/-- Witness of C12: the leaf `data/foo.txt` of the documented example. -/
theorem AssetDir_leaf_and_missing_same_error_witness :
    Generated.AssetDir MapOrder.stored exampleTree "data/foo.txt".toList =
      .error (.errorString "Asset data/foo.txt not found".toList) ∧
    (GoError.errorString "Asset data/foo.txt not found".toList =
        .errorString (Generated.notFoundText "data/foo.txt".toList) ∧
      (Generated.resolve exampleTree "data/foo.txt".toList = none ∨
        ∃ node, Generated.resolve exampleTree "data/foo.txt".toList = some node ∧
          node.Func.isSome = true)) :=
  ⟨rfl, AssetDir_leaf_and_missing_same_error MapOrder.stored exampleTree
    "data/foo.txt".toList _ rfl⟩

/-- C12 as stated fails: for the leaf `data/foo.txt` the error is
`Asset data/foo.txt not found`, of the same form as for the missing
`data/bar.txt`, and equal to the error for `data/foo.txt` in the tree that does
not contain it. -/
theorem AssetDir_leaf_error_is_not_found :
    (Generated.resolve exampleTree "data/foo.txt".toList).map (fun node => node.Func.isSome)
      = some true ∧
    (Generated.resolve exampleTree "data/bar.txt".toList).map (fun node => node.Func.isSome)
      = none ∧
    Generated.AssetDir MapOrder.stored exampleTree "data/foo.txt".toList =
      .error (.errorString "Asset data/foo.txt not found".toList) ∧
    Generated.AssetDir MapOrder.stored exampleTree "data/bar.txt".toList =
      .error (.errorString "Asset data/bar.txt not found".toList) ∧
    (Generated.resolve (plainTree exampleEnv (buildTree exampleTocNoFoo))
        "data/foo.txt".toList).map (fun node => node.Func.isSome) = none ∧
    Generated.AssetDir MapOrder.stored (plainTree exampleEnv (buildTree exampleTocNoFoo))
        "data/foo.txt".toList =
      Generated.AssetDir MapOrder.stored exampleTree "data/foo.txt".toList :=
  ⟨rfl, rfl, rfl, rfl, rfl, rfl⟩

theorem nodeAsset_nil (t : assetTree) : nodeAsset t [] = t.Asset := by
  unfold nodeAsset
  rw [walk_nil]
  rfl

theorem buildTree_root_Asset (toc : List Asset) : (buildTree toc).Asset = Asset.zero := by
  have h := nodeAsset_addAll_of_not_mem toc newAssetTree [] (fun c _ => Split_ne_nil c.Name)
  rw [← buildTree_eq, nodeAsset_nil, nodeAsset_nil] at h
  exact h

/-- C14, as amended: construction never rejects. For every table of contents,
the node of a name carries the asset inserted last under that name, and it has
a child for every inserted name of which it is a proper segment-prefix: a
repeated name replaces the earlier asset, and a leaf can have children. -/
theorem buildTree_never_rejects (l1 l2 : List Asset) (a : Asset)
    (hlast : ∀ c ∈ l2, c.Name ≠ a.Name) :
    ∃ node, (buildTree (l1 ++ a :: l2)).walk (Split a.Name) = some node ∧ node.Asset = a ∧
      ∀ c ∈ l1 ++ a :: l2, ∀ (s : GoString) (rest : List GoString),
        Split c.Name = Split a.Name ++ s :: rest → s ∈ mapKeys node.Children := by
  have hsome := (walk_addAll_isSome (l1 ++ a :: l2) newAssetTree (Split a.Name)).mpr
    (Or.inr ⟨a, List.mem_append_right _ (List.mem_cons_self _ _), List.prefix_refl _⟩)
  rw [← buildTree_eq] at hsome
  cases hw : (buildTree (l1 ++ a :: l2)).walk (Split a.Name) with
  | none => rw [hw] at hsome; cases hsome
  | some node =>
    refine ⟨node, rfl, ?_, ?_⟩
    · have h1 : nodeAsset (buildTree (l1 ++ a :: l2)) (Split a.Name) = a := by
        rw [buildTree_eq, addAll_append, addAll_cons,
          nodeAsset_addAll_of_not_mem l2 _ _
            (fun c hc hs => hlast c hc (Split_injective _ _ hs)),
          nodeAsset_Add, if_pos rfl]
      unfold nodeAsset at h1
      rw [hw] at h1
      exact h1
    · intro c hc s rest hsplit
      rw [← walk_single_isSome]
      have hws : (buildTree (l1 ++ a :: l2)).walk (Split a.Name ++ [s]) = node.walk [s] := by
        rw [walk_append, hw]; rfl
      rw [← hws, buildTree_eq, walk_addAll_isSome]
      exact Or.inr ⟨c, hc, rest, by rw [hsplit, List.append_assoc]; rfl⟩

/-- Witness of C14: `a` followed by `a/b`. -/
theorem buildTree_never_rejects_witness :
    (∀ c ∈ ([⟨"a/b".toList, "fileB".toList⟩] : List Asset), c.Name ≠ "a".toList) ∧
    ∃ node, (buildTree ([] ++ ⟨"a".toList, "fileA".toList⟩ ::
        [⟨"a/b".toList, "fileB".toList⟩])).walk (Split "a".toList) = some node ∧
      node.Asset = ⟨"a".toList, "fileA".toList⟩ ∧
      ∀ c ∈ ([] : List Asset) ++ ⟨"a".toList, "fileA".toList⟩ ::
          [⟨"a/b".toList, "fileB".toList⟩],
        ∀ (s : GoString) (rest : List GoString),
          Split c.Name = Split "a".toList ++ s :: rest → s ∈ mapKeys node.Children :=
  ⟨by decide,
   buildTree_never_rejects [] [⟨"a/b".toList, "fileB".toList⟩] ⟨"a".toList, "fileA".toList⟩
     (by decide)⟩

/-- C14 as stated fails: construction completes for the name `a` inserted twice,
with the second asset in place of the first, and for `a` with `a/b` in either
order, with a node `a` that carries an asset and has the child `b`. -/
theorem buildTree_accepts_duplicates_and_conflicts :
    ((buildTree duplicateToc).walk ["a".toList]).map
        (fun node => (node.Asset, mapKeys node.Children)) =
      some (⟨"a".toList, "second".toList⟩, []) ∧
    ((buildTree conflictToc).walk ["a".toList]).map
        (fun node => (node.Asset, mapKeys node.Children)) =
      some (⟨"a".toList, "fileA".toList⟩, ["b".toList]) ∧
    ((buildTree conflictToc.reverse).walk ["a".toList]).map
        (fun node => (node.Asset, mapKeys node.Children)) =
      some (⟨"a".toList, "fileA".toList⟩, ["b".toList]) :=
  ⟨by decide, by decide, by decide⟩

/-! ## `Open` on a directory, and the timestamp of a leaf -/

theorem afterLastSlash_of_no_slash (s : GoString) (h : '/' ∉ s) : afterLastSlash s = s := by
  unfold afterLastSlash Split List.splitOn
  rw [List.splitOnP_eq_single]
  · rfl
  · intro x hx hxs
    rw [beq_iff_eq] at hxs
    exact h (hxs ▸ hx)

/-- C15, as amended: when the content accessor fails and `fs.AssetDir` returns
the list `cs`, `Open` returns a nil error and a directory handle whose `Stat`
reports `IsDir = true` and `Size = 0`, whose cursor is 0, and whose `Readdir(0)`
returns `len(cs)` descriptors in the order of `cs`; the descriptor of a child
has the child as its path, as its `Name` what follows the last `/` of the child
(the child itself when it has no `/`), `Size = 0`, and `IsDir = true` exactly
when `fs.AssetDir` succeeds on the path joined with the child. -/
theorem Open_directory (ts : Time) (fs : AssetFS) (name : GoString) (cs : List GoString)
    (e0 : GoError)
    (hA : fs.Asset (canonicalPath fs.Prefix name) = .error e0)
    (hD : fs.AssetDir (canonicalPath fs.Prefix name) = .ok cs) :
    ∃ d : AssetDirectory, fs.Open ts name = .ok (.dir d) ∧
      d.Stat.IsDir = true ∧ d.Stat.Size = 0 ∧ d.ChildrenRead = 0 ∧
      d.Readdir 0 = some (⟨d.Children, none⟩, d) ∧
      d.Children.length = cs.length ∧
      d.Children = cs.map (fun child =>
        ⟨child, errIsNil (fs.AssetDir (Join (canonicalPath fs.Prefix name) child)), 0,
          zeroTime⟩) ∧
      ∀ child : GoString,
        let entry : FakeFile :=
          ⟨child, errIsNil (fs.AssetDir (Join (canonicalPath fs.Prefix name) child)), 0,
            zeroTime⟩
        entry.Name = afterLastSlash child ∧ ('/' ∉ child → entry.Name = child) ∧
        entry.Size = 0 ∧
        (entry.IsDir = true ↔
          errIsNil (fs.AssetDir (Join (canonicalPath fs.Prefix name) child)) = true) := by
  refine ⟨NewAssetDirectory (canonicalPath fs.Prefix name) cs fs, ?_, ?_, rfl, rfl, ?_, ?_, rfl,
    ?_⟩
  · unfold AssetFS.Open
    simp only [hA, hD]
  · exact FakeFile.IsDir_eq_Dir _
  · unfold AssetDirectory.Readdir
    rw [if_pos (le_refl (0 : Int))]
  · simp [NewAssetDirectory]
  · intro child
    refine ⟨rfl, fun h => afterLastSlash_of_no_slash child h, rfl, ?_⟩
    rw [FakeFile.IsDir_eq_Dir]


/-- Witness of C15: the directory `data` of the documented example. -/
theorem Open_directory_witness :
    ((exampleFS []).Asset (canonicalPath (exampleFS []).Prefix "/data".toList) =
        .error (.errorString "Asset data not found".toList) ∧
      (exampleFS []).AssetDir (canonicalPath (exampleFS []).Prefix "/data".toList) =
        .ok ["foo.txt".toList, "img".toList]) ∧
    ∃ d : AssetDirectory, (exampleFS []).Open 1 "/data".toList = .ok (.dir d) ∧
      d.Stat.IsDir = true ∧ d.Stat.Size = 0 ∧ d.ChildrenRead = 0 ∧
      d.Readdir 0 = some (⟨d.Children, none⟩, d) ∧
      d.Children.length = ["foo.txt".toList, "img".toList].length ∧
      d.Children = [⟨"foo.txt".toList, false, 0, zeroTime⟩, ⟨"img".toList, true, 0, zeroTime⟩] :=
  ⟨⟨rfl, rfl⟩,
   match Open_directory 1 (exampleFS []) "/data".toList ["foo.txt".toList, "img".toList] _
     rfl rfl with
   | ⟨d, h1, h2, h3, h4, h5, h6, h7, _⟩ => ⟨d, h1, h2, h3, h4, h5, h6, h7⟩⟩

/-- C15 as stated fails: when the directory accessor lists the child `a/b`, the
descriptor that `Readdir(0)` returns for it has the `Name` `b`, not `a/b`. -/
theorem Open_directory_child_with_slash :
    errIsNil (slashChildFS.Asset (canonicalPath slashChildFS.Prefix [])) = false ∧
    slashChildFS.AssetDir (canonicalPath slashChildFS.Prefix []) = .ok ["a/b".toList] ∧
    slashChildFS.Open 1 [] = .ok (.dir (NewAssetDirectory [] ["a/b".toList] slashChildFS)) ∧
    ((NewAssetDirectory [] ["a/b".toList] slashChildFS).Readdir 0).map
        (fun r => r.1.entries.map FakeFile.Name) = some ["b".toList] :=
  ⟨rfl, rfl, rfl, by decide⟩

/-- C16: for a successful `Open` of a leaf, the `ModTime` of the handle is the
time reported by `fs.AssetInfo` for the canonical path when `AssetInfo` is set,
succeeds and reports a non-zero time, and the default timestamp when
`AssetInfo` is nil, fails, or reports the zero time; so it is not the zero time
when the default timestamp is not. -/
theorem Open_leaf_timestamp (ts : Time) (fs : AssetFS) (name : GoString) (b : List Byte)
    (h : fs.Asset (canonicalPath fs.Prefix name) = .ok b) :
    ∃ f : AssetFile, fs.Open ts name = .ok (.file f) ∧
      (∀ assetInfo info, fs.AssetInfo = some assetInfo →
        assetInfo (canonicalPath fs.Prefix name) = .ok info → info.ModTime ≠ zeroTime →
        f.toFakeFile.ModTime = info.ModTime) ∧
      (fs.AssetInfo = none → f.toFakeFile.ModTime = ts) ∧
      (∀ assetInfo e, fs.AssetInfo = some assetInfo →
        assetInfo (canonicalPath fs.Prefix name) = .error e → f.toFakeFile.ModTime = ts) ∧
      (∀ assetInfo info, fs.AssetInfo = some assetInfo →
        assetInfo (canonicalPath fs.Prefix name) = .ok info → info.ModTime = zeroTime →
        f.toFakeFile.ModTime = ts) ∧
      (ts ≠ zeroTime → f.toFakeFile.ModTime ≠ zeroTime) := by
  have hopen : fs.Open ts name = .ok (.file (NewAssetFile ts (canonicalPath fs.Prefix name) b
      (match fs.AssetInfo with
        | none => ts
        | some assetInfo =>
          match assetInfo (canonicalPath fs.Prefix name) with
          | .ok info => info.ModTime
          | .error _ => ts))) := by
    unfold AssetFS.Open
    simp only [h]
  have hmod : ∀ t : Time, (NewAssetFile ts (canonicalPath fs.Prefix name) b t).toFakeFile.ModTime
      = if t = 0 then ts else t := by
    intro t
    show (if Time.IsZero t = true then ts else t) = _
    unfold Time.IsZero
    by_cases ht : t = 0
    · rw [if_pos (decide_eq_true ht), if_pos ht]
    · rw [if_neg (by rw [decide_eq_true_eq]; exact ht), if_neg ht]
  refine ⟨_, hopen, ?_, ?_, ?_, ?_, ?_⟩
  · intro assetInfo info h1 h2 h3
    rw [hmod, h1]
    simp only [h2]
    exact if_neg h3
  · intro h1
    rw [hmod, h1]
    simp only
    split <;> rfl
  · intro assetInfo e h1 h2
    rw [hmod, h1]
    simp only [h2]
    split <;> rfl
  · intro assetInfo info h1 h2 h3
    rw [hmod, h1]
    simp only [h2]
    exact if_pos h3
  · intro hts
    rw [hmod]
    split
    · exact hts
    · assumption

/-- Witness of C16: `data/foo.txt` with the time of its generated info. -/
theorem Open_leaf_timestamp_witness :
    (exampleFS []).Asset (canonicalPath (exampleFS []).Prefix "data/foo.txt".toList) =
      .ok [104, 105] ∧
    ∃ f : AssetFile, (exampleFS []).Open 7 "data/foo.txt".toList = .ok (.file f) ∧
      f.toFakeFile.ModTime = 1500000000 :=
  ⟨rfl,
   match Open_leaf_timestamp 7 (exampleFS []) "data/foo.txt".toList [104, 105] rfl with
   | ⟨f, h1, h2, _⟩ =>
     ⟨f, h1, h2 (Generated.AssetInfo (bindataTable exampleEnv exampleToc)) ⟨1500000000⟩ rfl rfl
       (by decide)⟩⟩


/-! ## The cursor of a directory handle -/

/-- One `Readdir` call on a handle whose cursor is within the snapshot, with a
count that does not overflow the cursor addition. -/
theorem Readdir_step (f : AssetDirectory) (count : Int)
    (hc0 : 0 ≤ f.ChildrenRead) (hcN : f.ChildrenRead ≤ len f.Children)
    (hov : count ≤ 0 ∨ f.ChildrenRead + count ≤ maxInt) :
    ∃ r f1, f.Readdir count = some (r, f1) ∧ r.err = none ∧
      f.ChildrenRead ≤ f1.ChildrenRead ∧ f1.ChildrenRead ≤ len f1.Children ∧
      f1.Children = f.Children := by
  by_cases hle : count ≤ 0
  · refine ⟨⟨f.Children, none⟩, f, ?_, rfl, le_refl _, hcN, rfl⟩
    unfold AssetDirectory.Readdir
    rw [if_pos hle]
  · have hpos : 0 < count := by omega
    have hfit : f.ChildrenRead + count ≤ maxInt := hov.resolve_left hle
    refine ⟨_, _, Readdir_pos_eq f count hc0 hcN hpos hfit, rfl, ?_, ?_, rfl⟩
    · show f.ChildrenRead ≤ min (f.ChildrenRead + count) (len f.Children)
      exact le_min (by omega) hcN
    · show min (f.ChildrenRead + count) (len f.Children) ≤ len f.Children
      exact min_le_right _ _

theorem Reachable_cursor (f0 f : AssetDirectory) (h : Reachable f0 f)
    (h0 : 0 ≤ f0.ChildrenRead) (hN : f0.ChildrenRead ≤ len f0.Children) :
    0 ≤ f.ChildrenRead ∧ f.ChildrenRead ≤ len f.Children ∧ f.Children = f0.Children ∧
      f0.ChildrenRead ≤ f.ChildrenRead := by
  induction h with
  | opened => exact ⟨h0, hN, rfl, le_refl _⟩
  | readdir f f1 count r _ hov hread ih =>
    obtain ⟨i0, iN, ich, imono⟩ := ih
    obtain ⟨r2, f2, hr, _, hmono, hle, hch⟩ := Readdir_step f count i0 iN hov
    rw [hread] at hr
    injection hr with hr
    injection hr with _ hf
    subst hf
    exact ⟨le_trans i0 hmono, hle, hch.trans ich, le_trans imono hmono⟩

/-- C20: in every state reachable from `NewAssetDirectory` by `Readdir` calls
whose counts do not overflow the cursor addition, `0 <= ChildrenRead <=
len(Children)` holds and `Children` is the snapshot taken at open time; from
such a state every further such call returns, with a nil error, a cursor that
is not smaller and the same snapshot. -/
theorem Readdir_cursor_invariant (name : GoString) (children : List GoString) (fs : AssetFS)
    (f : AssetDirectory) (h : Reachable (NewAssetDirectory name children fs) f) :
    0 ≤ f.ChildrenRead ∧ f.ChildrenRead ≤ len f.Children ∧
    f.Children = (NewAssetDirectory name children fs).Children ∧
    ∀ count : Int, (count ≤ 0 ∨ f.ChildrenRead + count ≤ maxInt) →
      ∃ r f1, f.Readdir count = some (r, f1) ∧ r.err = none ∧
        f.ChildrenRead ≤ f1.ChildrenRead ∧ f1.Children = f.Children := by
  have hinv := Reachable_cursor (NewAssetDirectory name children fs) f h (le_refl _)
    (by unfold len; exact Int.ofNat_nonneg _)
  refine ⟨hinv.1, hinv.2.1, hinv.2.2.1, ?_⟩
  intro count hov
  obtain ⟨r, f1, hr, herr, hmono, _, hch⟩ := Readdir_step f count hinv.1 hinv.2.1 hov
  exact ⟨r, f1, hr, herr, hmono, hch⟩

/-- Witness of C20: the state after one `Readdir(1)` on a directory of two
children. -/
theorem Readdir_cursor_invariant_witness :
    Reachable (NewAssetDirectory "d".toList ["a".toList, "b".toList] emptyFS)
      { NewAssetDirectory "d".toList ["a".toList, "b".toList] emptyFS with ChildrenRead := 1 } ∧
    (0 : Int) ≤ 1 ∧ (1 : Int) ≤ len [("a".toList), ("b".toList)] :=
  have hr : Reachable (NewAssetDirectory "d".toList ["a".toList, "b".toList] emptyFS)
      { NewAssetDirectory "d".toList ["a".toList, "b".toList] emptyFS with ChildrenRead := 1 } :=
    Reachable.readdir _ _ 1 ⟨[⟨"a".toList, false, 0, 0⟩], none⟩ Reachable.opened
      (Or.inr (by decide)) (by decide)
  ⟨hr, (Readdir_cursor_invariant "d".toList ["a".toList, "b".toList] emptyFS _ hr).1,
   (Readdir_cursor_invariant "d".toList ["a".toList, "b".toList] emptyFS _ hr).2.1⟩

/-! ## `ByteWriter.Write` -/

theorem hexDigit_spec : ∀ n, n < 16 → hexDigit n ∈ hexDigits ∧ hexVal (hexDigit n) = n := by
  decide

theorem foldl_enumFrom_step (p : List Byte) : ∀ (i : Nat) (n0 : Int) (w : ByteWriter),
    (p.enumFrom i).foldl
      (fun (st : Int × ByteWriter) (ib : Nat × Byte) => ((ib.1 : Int), st.2.step ib.2))
      (n0, w) =
    (if p = [] then n0 else ((i + p.length - 1 : Nat) : Int), p.foldl ByteWriter.step w) := by
  induction p with
  | nil => intro i n0 w; rfl
  | cons b p ih =>
    intro i n0 w
    rw [List.enumFrom_cons, List.foldl_cons, ih (i + 1) _ (w.step b), if_neg (List.cons_ne_nil b p)]
    rw [List.foldl_cons]
    by_cases hp : p = []
    · subst hp
      simp
    · rw [if_neg hp]
      have : i + 1 + p.length - 1 = i + (b :: p).length - 1 := by
        rw [List.length_cons]; omega
      rw [this]

theorem Write_state (w : ByteWriter) (p : List Byte) :
    (w.Write p).2 = p.foldl ByteWriter.step w := by
  unfold ByteWriter.Write
  by_cases hp : len p = 0
  · rw [if_pos hp]
    have : p = [] := by
      unfold len at hp
      exact List.length_eq_zero.mp (by omega)
    subst this
    rfl
  · rw [if_neg hp]
    simp only [List.enum, foldl_enumFrom_step]

theorem Write_n (w : ByteWriter) (p : List Byte) (hlen : len p ≤ maxInt) :
    (w.Write p).1 = (len p, none) := by
  unfold ByteWriter.Write
  by_cases hp : len p = 0
  · rw [if_pos hp, hp]
  · rw [if_neg hp]
    have hne : p ≠ [] := by
      intro h; subst h; exact hp rfl
    simp only [List.enum, foldl_enumFrom_step, if_neg hne]
    have hl : 0 < p.length := List.length_pos.mpr hne
    have : (((0 + p.length - 1 : Nat) : Int) + 1) = len p := by
      unfold len; omega
    rw [this, wrapInt_of_range _ (by unfold minInt len; omega) hlen]


theorem step_Writer (w : ByteWriter) (b : Byte) :
    (w.step b).Writer =
      w.Writer ++ ((if w.c.tmod 12 = 0 then newline ++ dataIndent else space) ++ hexToken b) := by
  unfold ByteWriter.step
  by_cases h : w.c.tmod 12 = 0
  · simp only [if_pos h, List.append_assoc]
  · simp only [if_neg h, List.append_assoc]

theorem foldl_step_Writer (p : List Byte) : ∀ w : ByteWriter,
    ∃ seps : List GoString, seps.length = p.length ∧
      (∀ s ∈ seps, s = space ∨ s = newline ++ dataIndent) ∧
      (p.foldl ByteWriter.step w).Writer =
        w.Writer ++ (List.zipWith (fun s b => s ++ hexToken b) seps p).flatten := by
  induction p with
  | nil =>
    intro w
    exact ⟨[], rfl, fun s hs => absurd hs (List.not_mem_nil s), by simp⟩
  | cons b p ih =>
    intro w
    obtain ⟨seps, hlen, hsep, hout⟩ := ih (w.step b)
    refine ⟨(if w.c.tmod 12 = 0 then newline ++ dataIndent else space) :: seps, ?_, ?_, ?_⟩
    · rw [List.length_cons, List.length_cons, hlen]
    · intro s hs
      rcases List.mem_cons.mp hs with h | h
      · rw [h]
        by_cases hc : w.c.tmod 12 = 0
        · rw [if_pos hc]; exact Or.inr rfl
        · rw [if_neg hc]; exact Or.inl rfl
      · exact hsep s h
    · rw [List.foldl_cons, hout, step_Writer, List.zipWith_cons_cons, List.flatten_cons,
        List.append_assoc]

theorem hexToken_form (b : Byte) :
    hexToken b = "0x".toList ++ [hexDigit (b.val / 16), hexDigit (b.val % 16)] ++ ",".toList ∧
    hexDigit (b.val / 16) ∈ hexDigits ∧ hexDigit (b.val % 16) ∈ hexDigits ∧
    hexVal (hexDigit (b.val / 16)) * 16 + hexVal (hexDigit (b.val % 16)) = b.val := by
  have hb := b.isLt
  have h1 := hexDigit_spec (b.val / 16) (by omega)
  have h2 := hexDigit_spec (b.val % 16) (by omega)
  refine ⟨rfl, h1.1, h2.1, ?_⟩
  rw [h1.2, h2.2]
  omega

/-- C18: for every writer state and every byte slice `p` (of a length that is a
Go `int`), `Write(p)` returns `n = len(p)` and a nil error, and appends to the
underlying writer `len(p)` tokens, the `i`-th being `0x`, the two lowercase
hexadecimal digits of `p[i]` and a comma, each preceded by a separator that is
a single space or a newline and two tabs, and nothing else. -/
theorem ByteWriter_Write_contract (w : ByteWriter) (p : List Byte) (hlen : len p ≤ maxInt) :
    (w.Write p).1 = (len p, none) ∧
    (∃ seps : List GoString, seps.length = p.length ∧
      (∀ s ∈ seps, s = space ∨ s = newline ++ dataIndent) ∧
      (w.Write p).2.Writer =
        w.Writer ++ (List.zipWith (fun s b => s ++ hexToken b) seps p).flatten) ∧
    ∀ b : Byte,
      hexToken b = "0x".toList ++ [hexDigit (b.val / 16), hexDigit (b.val % 16)] ++ ",".toList ∧
      hexDigit (b.val / 16) ∈ hexDigits ∧ hexDigit (b.val % 16) ∈ hexDigits ∧
      hexVal (hexDigit (b.val / 16)) * 16 + hexVal (hexDigit (b.val % 16)) = b.val := by
  refine ⟨Write_n w p hlen, ?_, hexToken_form⟩
  rw [Write_state]
  exact foldl_step_Writer p w

/-- Witness of C18: three bytes written with the counter at 11. -/
theorem ByteWriter_Write_contract_witness :
    len ([0, 255, 16] : List Byte) ≤ maxInt ∧
    (ByteWriter.Write ⟨"x".toList, 11⟩ [0, 255, 16]).1 = (3, none) :=
  ⟨by decide, (ByteWriter_Write_contract ⟨"x".toList, 11⟩ [0, 255, 16] (by decide)).1⟩

theorem writeAll_eq (chunks : List (List Byte)) : ∀ w : ByteWriter,
    writeAll w chunks = chunks.flatten.foldl ByteWriter.step w := by
  induction chunks with
  | nil => intro w; rfl
  | cons p chunks ih =>
    intro w
    show writeAll (w.Write p).2 chunks = _
    rw [ih, Write_state, List.flatten_cons, List.foldl_append]

theorem tmod_twelve (k : Nat) :
    (((if k = 0 then 0 else (k - 1) % 12 + 1 : Nat) : Int).tmod 12 = 0) ↔ k % 12 = 0 := by
  rw [Int.tmod_eq_emod (Int.ofNat_nonneg _) (by decide)]
  by_cases hk : k = 0
  · subst hk; simp
  · rw [if_neg hk]
    omega

theorem foldl_step_fresh (p : List Byte) : ∀ (w : ByteWriter) (k : Nat),
    w.c = ((if k = 0 then 0 else (k - 1) % 12 + 1 : Nat) : Int) →
    (p.foldl ByteWriter.step w).Writer =
      w.Writer ++ ((p.enumFrom k).map (fun kb => freshSep kb.1 ++ hexToken kb.2)).flatten ∧
    (p.foldl ByteWriter.step w).c =
      ((if k + p.length = 0 then 0 else (k + p.length - 1) % 12 + 1 : Nat) : Int) := by
  induction p with
  | nil =>
    intro w k hc
    exact ⟨by simp, by simpa using hc⟩
  | cons b p ih =>
    intro w k hc
    have htest : w.c.tmod 12 = 0 ↔ k % 12 = 0 := by rw [hc]; exact tmod_twelve k
    have hc1 : (w.step b).c = ((if k + 1 = 0 then 0 else (k + 1 - 1) % 12 + 1 : Nat) : Int) := by
      unfold ByteWriter.step
      by_cases h : w.c.tmod 12 = 0
      · have hk := htest.mp h
        simp only [if_pos h]
        rw [wrapInt_of_range _ (by decide) (by decide), if_neg (by omega)]
        have : (k + 1 - 1) % 12 = 0 := by omega
        rw [this]
        rfl
      · have hk : ¬ k % 12 = 0 := fun hk => h (htest.mpr hk)
        have hk0 : k ≠ 0 := by
          intro h0; subst h0; exact hk rfl
        simp only [if_neg h]
        rw [hc, if_neg hk0, if_neg (by omega),
          wrapInt_of_range _ (by unfold minInt; omega) (by unfold maxInt; omega)]
        omega
    obtain ⟨hout, hcnt⟩ := ih (w.step b) (k + 1) hc1
    rw [List.foldl_cons, hout, hcnt, step_Writer, List.enumFrom_cons, List.map_cons,
      List.flatten_cons, List.append_assoc]
    refine ⟨?_, ?_⟩
    · unfold freshSep
      by_cases h : w.c.tmod 12 = 0
      · rw [if_pos h, if_pos (htest.mp h)]
      · rw [if_neg h, if_neg (fun hk => h (htest.mpr hk))]
    · rw [List.length_cons]
      have : k + 1 + p.length = k + (p.length + 1) := by omega
      rw [this]


/-- C19: `Write(p)` followed by `Write(q)` leaves the same text and the same
counter as `Write(p ++ q)`, and so any sequence of `Write` calls does the same
as one call with the concatenated data; from a fresh writer, the `k`-th byte
written overall is preceded by a newline and two tabs when `k mod 12 = 0` and
by a single space otherwise, a newline comes at most 12 bytes after any byte,
and the counter stays between 0 and 12. -/
theorem ByteWriter_chunking (w : ByteWriter) (p q : List Byte) (out : GoString)
    (chunks : List (List Byte)) :
    ((w.Write p).2.Write q).2 = (w.Write (p ++ q)).2 ∧
    writeAll w chunks = (w.Write chunks.flatten).2 ∧
    (writeAll ⟨out, 0⟩ chunks).Writer =
      out ++ (chunks.flatten.enum.map (fun kb => freshSep kb.1 ++ hexToken kb.2)).flatten ∧
    (0 ≤ (writeAll ⟨out, 0⟩ chunks).c ∧ (writeAll ⟨out, 0⟩ chunks).c ≤ 12) ∧
    (∀ k : Nat, freshSep k = if k % 12 = 0 then ['\n', '\t', '\t'] else [' ']) ∧
    (∀ k : Nat, ∃ j, j < 12 ∧ freshSep (k + 1 + j) = ['\n', '\t', '\t']) := by
  have hfresh := foldl_step_fresh chunks.flatten ⟨out, 0⟩ 0 rfl
  refine ⟨?_, ?_, ?_, ?_, fun k => rfl, ?_⟩
  · rw [Write_state, Write_state, Write_state, List.foldl_append]
  · rw [writeAll_eq, Write_state]
  · rw [writeAll_eq]
    exact hfresh.1
  · rw [writeAll_eq, hfresh.2]
    constructor
    · exact Int.ofNat_nonneg _
    · split <;> omega
  · intro k
    refine ⟨11 - k % 12, by omega, ?_⟩
    unfold freshSep
    rw [if_pos (by omega)]
    rfl

/-! ## The text of the generated tree does not depend on the order of insertion -/

theorem sameTree_refl (t : assetTree) : sameTree t t := fun _ => ⟨rfl, rfl⟩

theorem sameTree_trans {t1 t2 t3 : assetTree} (h12 : sameTree t1 t2) (h23 : sameTree t2 t3) :
    sameTree t1 t3 :=
  fun p => ⟨(h12 p).1.trans (h23 p).1, (h12 p).2.trans (h23 p).2⟩

theorem walk_Add_isSome_eq (t : assetTree) (r p : List GoString) (a : Asset) :
    ((t.Add r a).walk p).isSome = ((t.walk p).isSome || decide (p <+: r)) := by
  rw [Bool.eq_iff_iff, walk_Add_isSome, Bool.or_eq_true, decide_eq_true_eq]

theorem sameTree_Add {t t2 : assetTree} (h : sameTree t t2) (r : List GoString) (a : Asset) :
    sameTree (t.Add r a) (t2.Add r a) := by
  intro p
  rw [walk_Add_isSome_eq, walk_Add_isSome_eq, nodeAsset_Add, nodeAsset_Add, (h p).1, (h p).2]
  exact ⟨rfl, rfl⟩

theorem sameTree_Add_swap (t : assetTree) (ra rb : List GoString) (a b : Asset)
    (hne : ra ≠ rb) : sameTree ((t.Add ra a).Add rb b) ((t.Add rb b).Add ra a) := by
  intro p
  rw [walk_Add_isSome_eq, walk_Add_isSome_eq, walk_Add_isSome_eq, walk_Add_isSome_eq,
    nodeAsset_Add, nodeAsset_Add, nodeAsset_Add, nodeAsset_Add]
  constructor
  · rw [Bool.or_assoc, Bool.or_assoc, Bool.or_comm (decide (p <+: ra))]
  · by_cases h1 : p = ra
    · have h2 : p ≠ rb := fun h => hne (h1.symm.trans h)
      rw [if_pos h1, if_neg h2, if_pos h1]
    · rw [if_neg h1, if_neg h1]

theorem sameTree_addAll (l : List Asset) : ∀ {t t2 : assetTree}, sameTree t t2 →
    sameTree (addAll t l) (addAll t2 l) := by
  induction l with
  | nil => intro t t2 h; exact h
  | cons a l ih =>
    intro t t2 h
    rw [addAll_cons, addAll_cons]
    exact ih (sameTree_Add h _ a)

theorem sameTree_addAll_perm {l l2 : List Asset} (hp : l.Perm l2) :
    (l.map Asset.Name).Nodup → ∀ t : assetTree, sameTree (addAll t l) (addAll t l2) := by
  induction hp with
  | nil => intro _ t; exact sameTree_refl _
  | cons a _ ih =>
    intro hd t
    rw [List.map_cons, List.nodup_cons] at hd
    rw [addAll_cons, addAll_cons]
    exact ih hd.2 _
  | swap a b l =>
    intro hd t
    rw [addAll_cons, addAll_cons, addAll_cons, addAll_cons]
    apply sameTree_addAll
    apply sameTree_Add_swap
    intro hs
    have hname : b.Name = a.Name := Split_injective _ _ hs
    rw [List.map_cons, List.map_cons, List.nodup_cons] at hd
    exact hd.1 (by rw [hname]; exact List.mem_cons_self _ _)
  | trans h1 _ ih1 ih2 =>
    intro hd t
    exact sameTree_trans (ih1 hd t) (ih2 ((h1.map Asset.Name).nodup_iff.mp hd) t)


theorem mapGet_writeGoMapChildren (order : MapOrder) (cs : List (GoString × assetTree))
    (nident : Nat) (k : GoString) :
    mapGet (writeGoMapChildren order cs nident) k =
      (mapGet cs k).map (fun sub => sub.writeGoMap order nident) := by
  induction cs with
  | nil => rw [writeGoMapChildren]; rfl
  | cons e cs ih =>
    obtain ⟨k1, t⟩ := e
    rw [writeGoMapChildren]
    show (if k1 = k then some (t.writeGoMap order nident)
        else mapGet (writeGoMapChildren order cs nident) k) =
      (if k1 = k then some t else mapGet cs k).map (fun sub => sub.writeGoMap order nident)
    by_cases h : k1 = k
    · rw [if_pos h, if_pos h]; rfl
    · rw [if_neg h, if_neg h, ih]

/-- The text of a node: its function, then, when it has children, one entry
per child name in ascending order, each with the text of the child. -/
theorem writeGoMap_unfold (order : MapOrder) (node : assetTree) (nident : Nat) :
    node.writeGoMap order nident =
      "&bintree\x7b".toList ++ node.funcOrNil ++ ", map[string]*bintree\x7b".toList ++
      (if node.Children.length > 0 then
        "\n".toList ++
        ((sortStrings (order.keys (mapKeys node.Children))).map fun p =>
          ident (nident + 1) ++ "\"".toList ++ p ++ "\": ".toList ++
            ((mapGet node.Children p).map
              (fun sub => sub.writeGoMap order (nident + 1))).getD []).flatten ++
        ident nident
      else []) ++
      "\x7d\x7d".toList ++ (if nident > 0 then ",".toList else []) ++ "\n".toList := by
  cases node with
  | mk a cs =>
    rw [assetTree.writeGoMap]
    simp only [mapGet_writeGoMapChildren, Children_mk]

theorem mem_of_mapGet {β : Type} (m : List (GoString × β)) (k : GoString) (v : β)
    (h : mapGet m k = some v) : (k, v) ∈ m := by
  induction m with
  | nil => cases h
  | cons e m ih =>
    obtain ⟨k1, w⟩ := e
    have h2 : (if k1 = k then some w else mapGet m k) = some v := h
    by_cases hk : k1 = k
    · rw [if_pos hk] at h2
      injection h2 with h2
      rw [hk, h2]
      exact List.mem_cons_self _ _
    · rw [if_neg hk] at h2
      exact List.mem_cons_of_mem _ (ih h2)

theorem sizeOf_child_lt (node sub : assetTree) (k : GoString)
    (h : mapGet node.Children k = some sub) : sizeOf sub < sizeOf node := by
  cases node with
  | mk a cs =>
    rw [Children_mk] at h
    have hm := List.sizeOf_lt_of_mem (mem_of_mapGet cs k sub h)
    have hp : sizeOf (k, sub) = 1 + sizeOf k + sizeOf sub := rfl
    have hn : sizeOf (assetTree.mk a cs) = 1 + sizeOf a + sizeOf cs :=
      assetTree.mk.sizeOf_spec a cs
    omega

theorem sameTree_child {t t2 sub sub2 : assetTree} (k : GoString) (h : sameTree t t2)
    (hs : mapGet t.Children k = some sub) (hs2 : mapGet t2.Children k = some sub2) :
    sameTree sub sub2 := by
  intro q
  have hq := h (k :: q)
  unfold nodeAsset at hq ⊢
  rw [walk_cons, walk_cons, hs, hs2] at hq
  exact hq

theorem keysNodup_child {t sub : assetTree} (k : GoString)
    (h : ∀ p node, t.walk p = some node → (mapKeys node.Children).Nodup)
    (hs : mapGet t.Children k = some sub) :
    ∀ p node, sub.walk p = some node → (mapKeys node.Children).Nodup := by
  intro p node hw
  apply h (k :: p) node
  rw [walk_cons, hs]
  exact hw

theorem sameTree_keys_perm {t t2 : assetTree} (h : sameTree t t2)
    (hn : (mapKeys t.Children).Nodup) (hn2 : (mapKeys t2.Children).Nodup) :
    (mapKeys t.Children).Perm (mapKeys t2.Children) := by
  rw [List.perm_ext_iff_of_nodup hn hn2]
  intro k
  rw [← walk_single_isSome, ← walk_single_isSome, (h [k]).1]

theorem sortStrings_eq_of_perm {l l2 : List GoString} (h : l.Perm l2) :
    sortStrings l = sortStrings l2 := by
  unfold sortStrings
  apply List.eq_of_perm_of_sorted (r := (· ≤ ·))
  · exact (List.perm_insertionSort _ l).trans (h.trans (List.perm_insertionSort _ l2).symm)
  · exact List.sorted_insertionSort _ l
  · exact List.sorted_insertionSort _ l2

theorem mem_sortStrings (order : MapOrder) (l : List GoString) (k : GoString) :
    k ∈ sortStrings (order.keys l) ↔ k ∈ l := by
  unfold sortStrings
  rw [(List.perm_insertionSort _ _).mem_iff, (order.perm l).mem_iff]

theorem mapKeys_length {β : Type} (m : List (GoString × β)) : (mapKeys m).length = m.length := by
  unfold mapKeys
  rw [List.length_map]

/-- The text of a tree depends only on its nodes and their assets. -/
theorem writeGoMap_congr (order order2 : MapOrder) : ∀ (n : Nat) (t t2 : assetTree),
    sizeOf t < n → sameTree t t2 →
    (∀ p node, t.walk p = some node → (mapKeys node.Children).Nodup) →
    (∀ p node, t2.walk p = some node → (mapKeys node.Children).Nodup) →
    ∀ nident, t.writeGoMap order nident = t2.writeGoMap order2 nident := by
  intro n
  induction n with
  | zero => intro t t2 hsz; exact absurd hsz (Nat.not_lt_zero _)
  | succ n ih =>
    intro t t2 hsz hsame hnd hnd2 nident
    have hkeys := sameTree_keys_perm hsame (hnd [] t (walk_nil t)) (hnd2 [] t2 (walk_nil t2))
    have hfunc : t.funcOrNil = t2.funcOrNil := by
      have ha := (hsame []).2
      rw [nodeAsset_nil, nodeAsset_nil] at ha
      unfold assetTree.funcOrNil
      rw [ha]
    have hlen : t.Children.length = t2.Children.length := by
      rw [← mapKeys_length, ← mapKeys_length]
      exact hkeys.length_eq
    have hsorted : sortStrings (order.keys (mapKeys t.Children)) =
        sortStrings (order2.keys (mapKeys t2.Children)) :=
      sortStrings_eq_of_perm (((order.perm _).trans hkeys).trans (order2.perm _).symm)
    rw [writeGoMap_unfold, writeGoMap_unfold, hfunc, hlen, ← hsorted]
    congr 8
    apply List.map_congr_left
    intro p hp
    have hp1 : p ∈ mapKeys t.Children := (mem_sortStrings order _ p).mp hp
    have hp2 : p ∈ mapKeys t2.Children := hkeys.mem_iff.mp hp1
    cases hs : mapGet t.Children p with
    | none =>
      have := (mapGet_isSome_iff t.Children p).mpr hp1
      rw [hs] at this
      cases this
    | some sub =>
      cases hs2 : mapGet t2.Children p with
      | none =>
        have := (mapGet_isSome_iff t2.Children p).mpr hp2
        rw [hs2] at this
        cases this
      | some sub2 =>
        have hsub := sizeOf_child_lt t sub p hs
        have hrec := ih sub sub2 (by omega) (sameTree_child p hsame hs hs2)
          (keysNodup_child p hnd hs) (keysNodup_child p hnd2 hs2) (nident + 1)
        simp only [Option.map_some', Option.getD_some, hrec]


/-- C17: `writeGoMap` writes the children of every node in ascending order of
their names, and for two tables of contents with pairwise distinct names that
are permutations of each other the text written by `writeTOCTree` is the same,
in whatever order the maps are visited. -/
theorem writeTOCTree_stable (order order2 : MapOrder) (toc toc2 : List Asset)
    (hperm : toc.Perm toc2) (hd : (toc.map Asset.Name).Nodup) :
    writeTOCTree order toc = writeTOCTree order2 toc2 ∧
    ∀ (node : assetTree) (nident : Nat), ∃ filenames : List GoString,
      filenames.Sorted (· ≤ ·) ∧ filenames.Perm (mapKeys node.Children) ∧
      node.writeGoMap order nident =
        "&bintree\x7b".toList ++ node.funcOrNil ++ ", map[string]*bintree\x7b".toList ++
        (if node.Children.length > 0 then
          "\n".toList ++
          (filenames.map fun p =>
            ident (nident + 1) ++ "\"".toList ++ p ++ "\": ".toList ++
              ((mapGet node.Children p).map
                (fun sub => sub.writeGoMap order (nident + 1))).getD []).flatten ++
          ident nident
        else []) ++
        "\x7d\x7d".toList ++ (if nident > 0 then ",".toList else []) ++ "\n".toList := by
  constructor
  · unfold writeTOCTree assetTree.WriteAsGoMap
    rw [buildTree_eq, buildTree_eq]
    rw [writeGoMap_congr order order2 (sizeOf (addAll newAssetTree toc) + 1)
      (addAll newAssetTree toc) (addAll newAssetTree toc2) (Nat.lt_succ_self _)
      (sameTree_addAll_perm hperm hd newAssetTree)
      (keysNodup_addAll toc newAssetTree keysNodup_new)
      (keysNodup_addAll toc2 newAssetTree keysNodup_new) 0]
  · intro node nident
    refine ⟨sortStrings (order.keys (mapKeys node.Children)), ?_, ?_, writeGoMap_unfold order node nident⟩
    · exact List.sorted_insertionSort _ _
    · exact (List.perm_insertionSort _ _).trans (order.perm _)

/-- Witness of C17: the documented example inserted in reverse, with the maps
visited in reverse. -/
theorem writeTOCTree_stable_witness :
    (exampleToc.Perm exampleToc.reverse ∧ (exampleToc.map Asset.Name).Nodup) ∧
    writeTOCTree MapOrder.stored exampleToc = writeTOCTree MapOrder.reversed exampleToc.reverse :=
  ⟨⟨(List.reverse_perm exampleToc).symm, by decide⟩,
   (writeTOCTree_stable MapOrder.stored MapOrder.reversed exampleToc exampleToc.reverse
     (List.reverse_perm exampleToc).symm (by decide)).1⟩

/-! ## The compiled tree -/

theorem mem_of_mem_Split (s seg : GoString) (h : seg ∈ Split s) : ∀ c ∈ seg, c ∈ s := by
  induction s generalizing seg with
  | nil =>
    rw [Split_nil, List.mem_singleton] at h
    intro c hc
    rw [h] at hc
    exact absurd hc (List.not_mem_nil _)
  | cons c0 s ih =>
    rw [Split_cons] at h
    by_cases hc : c0 = '/'
    · rw [if_pos hc, List.mem_cons] at h
      rcases h with h | h
      · intro c hcm
        rw [h] at hcm
        exact absurd hcm (List.not_mem_nil _)
      · intro c hcm
        exact List.mem_cons_of_mem _ (ih seg h c hcm)
    · rw [if_neg hc] at h
      cases hs : Split s with
      | nil => exact absurd hs (Split_ne_nil s)
      | cons x xs =>
        rw [hs] at h ih
        simp only [List.modifyHead, List.mem_cons] at h
        rcases h with h | h
        · intro c hcm
          rw [h] at hcm
          rcases List.mem_cons.mp hcm with h1 | h1
          · rw [h1]; exact List.mem_cons_self _ _
          · exact List.mem_cons_of_mem _ (ih x (List.mem_cons_self _ _) c h1)
        · intro c hcm
          exact List.mem_cons_of_mem _ (ih seg (List.mem_cons_of_mem _ h) c hcm)

theorem literalPlain_of_subset (s k : GoString) (hs : literalPlain s = true)
    (h : ∀ c ∈ k, c ∈ s) : literalPlain k = true := by
  unfold literalPlain at hs ⊢
  rw [List.all_eq_true] at hs ⊢
  intro c hc
  exact hs c (h c hc)

theorem literalPlain_segment (s seg : GoString) (hs : literalPlain s = true)
    (h : seg ∈ Split s) : literalPlain seg = true :=
  literalPlain_of_subset s seg hs (mem_of_mem_Split s seg h)

theorem not_backslash_of_literalPlain (s : GoString) (hs : literalPlain s = true) :
    '\\' ∉ s := by
  intro hm
  unfold literalPlain at hs
  rw [List.all_eq_true] at hs
  have := hs _ hm
  revert this
  decide

theorem mapGet_of_mem_nodup {β : Type} (m : List (GoString × β)) (k : GoString) (v : β)
    (hn : (mapKeys m).Nodup) (h : (k, v) ∈ m) : mapGet m k = some v := by
  induction m with
  | nil => exact absurd h (List.not_mem_nil _)
  | cons e m ih =>
    obtain ⟨k1, w⟩ := e
    rw [mapKeys_cons, List.nodup_cons] at hn
    show (if k1 = k then some w else mapGet m k) = some v
    rcases List.mem_cons.mp h with h1 | h1
    · injection h1 with h2 h3
      rw [if_pos h2.symm, h3]
    · have hk : k ∈ mapKeys m := List.mem_map.mpr ⟨(k, v), h1, rfl⟩
      have hne : k1 ≠ k := fun e => hn.1 (e ▸ hk)
      rw [if_neg hne]
      exact ih hn.2 h1

theorem toBintreeChildren_eq (lit : GoLiteral) (env : GoString → Except GoError asset)
    (l : List (GoString × assetTree))
    (h : ∀ e ∈ l, lit.value e.1 = some e.1 ∧ toBintree lit env e.2 = some (plainTree env e.2)) :
    toBintreeChildren lit env l = some (plainTreeChildren env l) := by
  induction l with
  | nil => rw [toBintreeChildren, plainTreeChildren]
  | cons e l ih =>
    obtain ⟨k, t⟩ := e
    have h1 := h (k, t) (List.mem_cons_self _ _)
    rw [toBintreeChildren, h1.1, h1.2, ih (fun e he => h e (List.mem_cons_of_mem _ he)),
      plainTreeChildren]

/-- A tree whose keys are plain and, in each node, distinct is compiled to the
tree with the same keys. -/
theorem toBintree_eq_plainTree (lit : GoLiteral) (env : GoString → Except GoError asset) :
    ∀ (n : Nat) (t : assetTree), sizeOf t < n →
    (∀ p node, t.walk p = some node → (mapKeys node.Children).Nodup) →
    (∀ p node, t.walk p = some node → ∀ k ∈ mapKeys node.Children, literalPlain k = true) →
    toBintree lit env t = some (plainTree env t) := by
  intro n
  induction n with
  | zero => intro t hsz; exact absurd hsz (Nat.not_lt_zero _)
  | succ n ih =>
    intro t hsz hnd hpl
    cases t with
    | mk a cs =>
      have hn0 : (mapKeys cs).Nodup := hnd [] _ (walk_nil _)
      have hch : toBintreeChildren lit env cs = some (plainTreeChildren env cs) := by
        apply toBintreeChildren_eq
        intro e he
        obtain ⟨k, sub⟩ := e
        have hget : mapGet (assetTree.mk a cs).Children k = some sub :=
          mapGet_of_mem_nodup cs k sub hn0 he
        have hk : k ∈ mapKeys cs := List.mem_map.mpr ⟨(k, sub), he, rfl⟩
        refine ⟨lit.plain k (hpl [] _ (walk_nil _) k hk), ?_⟩
        have hsub := sizeOf_child_lt _ sub k hget
        refine ih sub (by omega) (keysNodup_child k hnd hget) ?_
        intro p node hw
        apply hpl (k :: p) node
        rw [walk_cons, hget]
        exact hw
      rw [toBintree, hch]
      simp only
      rw [mapKeys_plainTreeChildren, if_pos hn0, plainTree]

theorem keysPlain_buildTree (toc : List Asset) (hpl : ∀ a ∈ toc, literalPlain a.Name = true) :
    ∀ p node, (buildTree toc).walk p = some node →
      ∀ k ∈ mapKeys node.Children, literalPlain k = true := by
  intro p node hw k hk
  have h1 : ((buildTree toc).walk (p ++ [k])).isSome = true := by
    rw [walk_append, hw]
    exact (walk_single_isSome node k).mpr hk
  rw [buildTree_eq, walk_addAll_isSome, walk_new_append_single] at h1
  rcases h1 with h1 | ⟨a, ha, hpre⟩
  · cases h1
  · apply literalPlain_segment a.Name k (hpl a ha)
    obtain ⟨q, hq⟩ := hpre
    rw [← hq]
    simp

/-- The tree built from plain names compiles, to the tree with the same
keys. -/
theorem toBintree_buildTree (lit : GoLiteral) (env : GoString → Except GoError asset)
    (toc : List Asset) (hpl : ∀ a ∈ toc, literalPlain a.Name = true) :
    toBintree lit env (buildTree toc) = some (plainTree env (buildTree toc)) :=
  toBintree_eq_plainTree lit env (sizeOf (buildTree toc) + 1) (buildTree toc) (Nat.lt_succ_self _)
    (by rw [buildTree_eq]; exact keysNodup_addAll toc newAssetTree keysNodup_new)
    (keysPlain_buildTree toc hpl)

theorem toBintree_exampleToc (lit : GoLiteral) :
    toBintree lit exampleEnv (buildTree exampleToc) = some exampleTree :=
  toBintree_buildTree lit exampleEnv exampleToc (by decide)

theorem toBintree_exampleTocNoFoo (lit : GoLiteral) :
    toBintree lit exampleEnv (buildTree exampleTocNoFoo) =
      some (plainTree exampleEnv (buildTree exampleTocNoFoo)) :=
  toBintree_buildTree lit exampleEnv exampleTocNoFoo (by decide)

theorem generatedFS_exampleToc (lit : GoLiteral) (pre : GoString) :
    generatedFS lit MapOrder.stored exampleEnv exampleToc pre = some (exampleFS pre) := by
  unfold generatedFS
  rw [if_pos (by decide), toBintree_exampleToc]
  rfl

/-- The root of a compiled tree: the function of the root and, as keys, what
the compiler reads from the keys written. -/
theorem toBintree_Func (lit : GoLiteral) (env : GoString → Except GoError asset)
    (t : assetTree) (root : bintree) (h : toBintree lit env t = some root) :
    root.Func = funcOrNil env t.Asset := by
  cases t with
  | mk a cs =>
    rw [toBintree] at h
    cases hc : toBintreeChildren lit env cs with
    | none => rw [hc] at h; cases h
    | some m =>
      rw [hc] at h
      simp only at h
      by_cases hn : (mapKeys m).Nodup
      · rw [if_pos hn] at h
        injection h with h
        rw [← h]
        rfl
      · rw [if_neg hn] at h
        cases h

theorem mem_Split_of_mem (s : GoString) (c : Char) (hc : c ∈ s) (hne : c ≠ '/') :
    ∃ seg ∈ Split s, c ∈ seg := by
  induction s with
  | nil => exact absurd hc (List.not_mem_nil _)
  | cons c0 s ih =>
    rw [Split_cons]
    by_cases h0 : c0 = '/'
    · rw [if_pos h0]
      rcases List.mem_cons.mp hc with h1 | h1
      · exact absurd (h1.trans h0) hne
      · obtain ⟨seg, hseg, hcs⟩ := ih h1
        exact ⟨seg, List.mem_cons_of_mem _ hseg, hcs⟩
    · rw [if_neg h0]
      cases hs : Split s with
      | nil => exact absurd hs (Split_ne_nil s)
      | cons x xs =>
        rw [hs] at ih
        rcases List.mem_cons.mp hc with h1 | h1
        · exact ⟨c0 :: x, List.mem_cons_self _ _, h1 ▸ List.mem_cons_self _ _⟩
        · obtain ⟨seg, hseg, hcs⟩ := ih h1
          rcases List.mem_cons.mp hseg with h2 | h2
          · exact ⟨c0 :: x, List.mem_cons_self _ _, List.mem_cons_of_mem _ (h2 ▸ hcs)⟩
          · exact ⟨seg, List.mem_cons_of_mem _ h2, hcs⟩

theorem bintree_walk_grandchild_none (key ck x y : GoString)
    (f1 f2 f3 : Option (Except GoError asset)) (hne : ck ≠ y) :
    (bintree.mk f1 [(key, bintree.mk f2 [(ck, bintree.mk f3 [])])]).walk [x, y] = none := by
  rw [bintree_walk_cons]
  show (match (if key = x then some (bintree.mk f2 [(ck, bintree.mk f3 [])]) else none) with
    | none => none
    | some sub => bintree.walk sub [y]) = none
  by_cases hk : key = x
  · rw [if_pos hk]
    show (bintree.mk f2 [(ck, bintree.mk f3 [])]).walk [y] = none
    rw [bintree_walk_cons]
    show (match (if ck = y then some (bintree.mk f3 []) else none) with
      | none => none
      | some sub => bintree.walk sub []) = none
    rw [if_neg hne]
  · rw [if_neg hk]

/-- C7, at the failing input: with the generated accessors for the documented
example, which compiles, when the loader of `data/foo.txt` fails, `Asset`
returns its `can't read` error, and `Open` drops it and returns
`os.ErrNotExist`, because `AssetDir` answers `not found` for a node that
carries a function. -/
theorem Open_read_error_reported_as_not_exist (lit : GoLiteral) (order : MapOrder) (ts : Time) :
    ∃ fs, generatedFS lit order brokenEnv exampleToc [] = some fs ∧
      fs.Asset "data/foo.txt".toList =
        .error (.errorString
          "Asset data/foo.txt can't read by error: gzip: invalid header".toList) ∧
      fs.Open ts "data/foo.txt".toList = .error .ErrNotExist := by
  refine ⟨{ Asset := Generated.Asset (bindataTable brokenEnv exampleToc)
            AssetDir := Generated.AssetDir order (plainTree brokenEnv (buildTree exampleToc))
            AssetInfo := some (Generated.AssetInfo (bindataTable brokenEnv exampleToc))
            Prefix := [] }, ?_, rfl, rfl⟩
  unfold generatedFS
  rw [if_pos (by decide), toBintree_buildTree lit brokenEnv exampleToc (by decide)]

/-- C10, as amended: for every table of contents with pairwise distinct names
none of which contains a backslash, a double quote, a newline, NUL or the byte
order mark, and every directory path `d` that is the empty path, or a proper
segment-prefix of some inserted name and not itself an inserted name, the
generated source compiles and its `AssetDir(d)` succeeds, in whatever order the
map is visited, and returns a list without duplicates whose elements are
exactly the segments that follow `d` in the inserted names having `d` as a
segment-prefix; for the empty path these are the first segments of all
inserted names. -/
theorem AssetDir_lists_children (lit : GoLiteral) (order : MapOrder)
    (env : GoString → Except GoError asset) (toc : List Asset) (pre d : GoString)
    (hd : (toc.map Asset.Name).Nodup)
    (hpl : ∀ a ∈ toc, literalPlain a.Name = true)
    (hdir : d = [] ∨
      ((∃ a ∈ toc, ∃ s rest, Split a.Name = Split d ++ s :: rest) ∧ d ∉ toc.map Asset.Name)) :
    ∃ fs, generatedFS lit order env toc pre = some fs ∧
      ∃ rv, fs.AssetDir d = .ok rv ∧ rv.Nodup ∧
        ∀ s, s ∈ rv ↔ ∃ a ∈ toc, ∃ rest, Split a.Name = dirSegs d ++ s :: rest := by
  refine ⟨{ Asset := Generated.Asset (bindataTable env toc)
            AssetDir := Generated.AssetDir order (plainTree env (buildTree toc))
            AssetInfo := some (Generated.AssetInfo (bindataTable env toc))
            Prefix := pre }, ?_, ?_⟩
  · unfold generatedFS
    rw [if_pos hd, toBintree_buildTree lit env toc hpl]
  · show ∃ rv, Generated.AssetDir order (plainTree env (buildTree toc)) d = .ok rv ∧ rv.Nodup ∧
        ∀ s, s ∈ rv ↔ ∃ a ∈ toc, ∃ rest, Split a.Name = dirSegs d ++ s :: rest
    by_cases hd0 : d = []
    · subst hd0
      refine AssetDir_buildTree order env toc [] (List.not_mem_nil _) ?_ ?_
      · show ((buildTree toc).walk []).isSome = true
        rw [walk_nil]; rfl
      · intro c _
        exact Split_ne_nil c.Name
    · have hlen : d.length ≠ 0 := fun h => hd0 (List.length_eq_zero.mp h)
      have hsegs : dirSegs d = Split d := by unfold dirSegs; rw [if_pos hlen]
      rcases hdir with h | ⟨⟨a, ha, s, rest, hsplit⟩, hnot⟩
      · exact absurd h hd0
      · have hbs : '\\' ∉ d := by
          intro hm
          obtain ⟨seg, hseg, hcs⟩ := mem_Split_of_mem d '\\' hm (by decide)
          have hseg2 : seg ∈ Split a.Name := by
            rw [hsplit]
            exact List.mem_append_left _ hseg
          exact not_backslash_of_literalPlain a.Name (hpl a ha)
            (mem_of_mem_Split a.Name seg hseg2 _ hcs)
        refine AssetDir_buildTree order env toc d hbs ?_ ?_
        · rw [hsegs, buildTree_eq, walk_addAll_isSome]
          exact Or.inr ⟨a, ha, s :: rest, hsplit.symm⟩
        · intro c hc hcs
          rw [hsegs] at hcs
          exact hnot (List.mem_map.mpr ⟨c, hc, Split_injective _ _ hcs⟩)

/-- Witness of C10: the directory `data` of the documented example. -/
theorem AssetDir_lists_children_witness :
    ((exampleToc.map Asset.Name).Nodup ∧
      (∀ a ∈ exampleToc, literalPlain a.Name = true) ∧
      ("data".toList = [] ∨
        ((∃ a ∈ exampleToc, ∃ s rest, Split a.Name = Split "data".toList ++ s :: rest) ∧
          "data".toList ∉ exampleToc.map Asset.Name))) ∧
    ∃ fs, generatedFS GoLiteral.strict MapOrder.stored exampleEnv exampleToc [] = some fs ∧
      ∃ rv, fs.AssetDir "data".toList = .ok rv ∧ rv.Nodup ∧
        ∀ s, s ∈ rv ↔
          ∃ a ∈ exampleToc, ∃ rest, Split a.Name = dirSegs "data".toList ++ s :: rest :=
  ⟨⟨by decide, by decide, Or.inr ⟨⟨⟨"data/foo.txt".toList, "dataFooTxt".toList⟩, by decide,
      "foo.txt".toList, [], by decide⟩, by decide⟩⟩,
   AssetDir_lists_children GoLiteral.strict MapOrder.stored exampleEnv exampleToc []
     "data".toList (by decide) (by decide)
     (Or.inr ⟨⟨⟨"data/foo.txt".toList, "dataFooTxt".toList⟩, by decide,
      "foo.txt".toList, [], by decide⟩, by decide⟩)⟩

/-- C10 as stated fails: with the single asset `a\\b/c`, the path `a\\b` is a
proper segment-prefix of the inserted name and not an inserted name, and
`AssetDir` fails on it however the compiler reads the key written for `a\\b`:
it replaces the backslash of the path by `/` and looks for a child `a` of the
root with a child `b`, and the only grandchild of the root is `c`. -/
theorem AssetDir_fails_on_backslash_directory :
    (backslashToc.map Asset.Name).Nodup ∧
    (∃ a ∈ backslashToc, ∃ s rest, Split a.Name = Split "a\\b".toList ++ s :: rest) ∧
    "a\\b".toList ∉ backslashToc.map Asset.Name ∧
    ∀ (lit : GoLiteral) (order : MapOrder) (fs : AssetFS),
      generatedFS lit order exampleEnv backslashToc [] = some fs →
      fs.AssetDir "a\\b".toList = .error (.errorString "Asset a\\b not found".toList) := by
  refine ⟨by decide, ⟨⟨"a\\b/c".toList, "aBC".toList⟩, by decide, "c".toList, [], by decide⟩,
    by decide, ?_⟩
  intro lit order fs h
  have hb : buildTree backslashToc =
      .mk Asset.zero [("a\\b".toList, .mk Asset.zero
        [("c".toList, .mk ⟨"a\\b/c".toList, "aBC".toList⟩ [])])] := rfl
  have hc : lit.value "c".toList = some "c".toList := lit.plain _ (by decide)
  unfold generatedFS at h
  rw [if_pos (by decide), hb] at h
  simp only [toBintree, toBintreeChildren, hc] at h
  cases hv : lit.value "a\\b".toList with
  | none =>
    rw [hv] at h
    simp at h
  | some key =>
    rw [hv] at h
    simp [mapKeys] at h
    rw [← h]
    show Generated.AssetDir order _ _ = _
    unfold Generated.AssetDir
    have hsp : Split (ReplaceBackslash "a\\b".toList) = ["a".toList, "b".toList] := by decide
    rw [if_pos (by decide), hsp]
    rw [bintree_walk_grandchild_none key _ "a".toList "b".toList _ _ _ (by decide)]
    rfl

/-- C13: for every table of contents, the empty one and one with an asset of
empty name included, the root of the built tree keeps the zero asset; so in the
compiled program the function of the root of `_bintree` is nil and the generated
`AssetDir("")` returns a nil error with the children of that root, in the
order the map is visited. The source compiles, with the first segments of the
names as the children of the root, when no name contains a backslash, a double
quote, a newline, NUL or the byte order mark. -/
theorem AssetDir_empty_path (lit : GoLiteral) (order : MapOrder)
    (env : GoString → Except GoError asset) (toc : List Asset) :
    (buildTree toc).Asset = Asset.zero ∧
    (∀ root, toBintree lit env (buildTree toc) = some root →
      root.Func = none ∧
      Generated.AssetDir order root [] = .ok (order.keys (mapKeys root.Children))) ∧
    ((∀ a ∈ toc, literalPlain a.Name = true) →
      ∃ root, toBintree lit env (buildTree toc) = some root ∧
        mapKeys root.Children = mapKeys (buildTree toc).Children) := by
  refine ⟨buildTree_root_Asset toc, ?_, ?_⟩
  · intro root h
    have hfunc : root.Func = none := by
      rw [toBintree_Func lit env _ root h, buildTree_root_Asset]
      rfl
    refine ⟨hfunc, ?_⟩
    rw [AssetDir_unfold]
    show (if root.Func.isSome = true then _ else _) = _
    rw [hfunc, if_neg (by exact Bool.false_ne_true)]
  · intro hpl
    exact ⟨_, toBintree_buildTree lit env toc hpl, by
      rw [plainTree_Children, mapKeys_plainTreeChildren]⟩

/-- Witness of C13: the documented example, whose root has the one child
`data`. -/
theorem AssetDir_empty_path_witness :
    toBintree GoLiteral.strict exampleEnv (buildTree exampleToc) = some exampleTree ∧
    exampleTree.Func = none ∧
    Generated.AssetDir MapOrder.stored exampleTree [] = .ok ["data".toList] :=
  ⟨toBintree_exampleToc GoLiteral.strict,
   (AssetDir_empty_path GoLiteral.strict MapOrder.stored exampleEnv exampleToc).2.1 exampleTree
     (toBintree_exampleToc GoLiteral.strict)⟩

/-! ## Prefix mounting -/

theorem properSegs_intercalate (segs : List GoString) (hne : segs ≠ [])
    (h : ∀ seg ∈ segs, seg ≠ [] ∧ seg ≠ ['.'] ∧ '/' ∉ seg) :
    Split (['/'].intercalate segs) = segs ∧ properSegs (['/'].intercalate segs) = segs := by
  have hs : Split (['/'].intercalate segs) = segs := by
    unfold Split
    exact List.splitOn_intercalate _ '/' (fun l hl => (h l hl).2.2) hne
  refine ⟨hs, ?_⟩
  unfold properSegs
  rw [hs, List.filter_eq_self]
  intro seg hseg
  rw [decide_eq_true_iff]
  exact ⟨(h seg hseg).1, (h seg hseg).2.1⟩

theorem mem_properSegs_iff (s seg : GoString) :
    seg ∈ properSegs s ↔ seg ∈ Split s ∧ seg ≠ [] ∧ seg ≠ ['.'] := by
  unfold properSegs
  rw [List.mem_filter, decide_eq_true_iff]

theorem properSegs_proper (pre name : GoString) :
    ∀ seg ∈ properSegs pre ++ properSegs name, seg ≠ [] ∧ seg ≠ ['.'] ∧ '/' ∉ seg := by
  intro seg hseg
  rcases List.mem_append.mp hseg with h | h
  · have h1 := (mem_properSegs_iff pre seg).mp h
    exact ⟨h1.2.1, h1.2.2, not_sep_mem_of_mem_Split pre seg h1.1⟩
  · have h1 := (mem_properSegs_iff name seg).mp h
    exact ⟨h1.2.1, h1.2.2, not_sep_mem_of_mem_Split name seg h1.1⟩

/-- The canonical path has the proper elements of the prefix and of the name. -/
theorem properSegs_canonicalPath (pre name : GoString)
    (hP : ['.', '.'] ∉ Split pre) (hn : ['.', '.'] ∉ Split name) :
    properSegs (canonicalPath pre name) = properSegs pre ++ properSegs name := by
  have h1 := canonicalPath_eq pre name hP hn
  by_cases hne : properSegs pre ++ properSegs name = []
  · rcases h1.2 hne with h | h
    · rw [h, hne]; rfl
    · rw [h, hne]; rfl
  · rw [h1.1 hne]
    exact (properSegs_intercalate _ hne (properSegs_proper pre name)).2

/-- The canonical path is its own canonical path under the empty prefix. -/
theorem canonicalPath_idem (pre name : GoString)
    (hP : ['.', '.'] ∉ Split pre) (hn : ['.', '.'] ∉ Split name) :
    canonicalPath [] (canonicalPath pre name) = canonicalPath pre name := by
  have h1 := canonicalPath_eq pre name hP hn
  by_cases hne : properSegs pre ++ properSegs name = []
  · rcases h1.2 hne with h | h
    · rw [h]; rfl
    · rw [h]; decide
  · have hc := h1.1 hne
    have hsp := properSegs_intercalate _ hne (properSegs_proper pre name)
    have hdd : ['.', '.'] ∉ Split (canonicalPath pre name) := by
      rw [hc, hsp.1]
      intro hm
      rcases List.mem_append.mp hm with h | h
      · exact hP (mem_properSegs pre _ h).1
      · exact hn (mem_properSegs name _ h).1
    have h2 := (canonicalPath_eq [] (canonicalPath pre name) (by decide) hdd).1
    rw [properSegs_nil, List.nil_append, properSegs_canonicalPath pre name hP hn] at h2
    rw [h2 hne, ← hc]

theorem bintree_walk_append (p : List GoString) : ∀ (t : bintree) (q : List GoString),
    t.walk (p ++ q) = (t.walk p).bind (fun node => node.walk q) := by
  induction p with
  | nil => intro t q; rw [List.nil_append, bintree_walk_nil]; rfl
  | cons x p ih =>
    intro t q
    rw [List.cons_append, bintree_walk_cons, bintree_walk_cons]
    cases mapGet t.Children x with
    | none => rfl
    | some sub => exact ih sub q

theorem Open_of_canonicalPath (ts : Time) (fs fs2 : AssetFS) (name name2 : GoString)
    (hA : fs2.Asset = fs.Asset) (hD : fs2.AssetDir = fs.AssetDir)
    (hI : fs2.AssetInfo = fs.AssetInfo)
    (hc : canonicalPath fs2.Prefix name2 = canonicalPath fs.Prefix name) :
    fs2.Open ts name2 = fs.Open ts name := by
  unfold AssetFS.Open NewAssetDirectory
  simp only [hA, hD, hI, hc]

theorem dirSegs_of_Split (c : GoString) (segs : List GoString) (hs : Split c = segs)
    (h : ([] : GoString) ∉ segs) : dirSegs c = segs := by
  unfold dirSegs
  have hlen : c.length ≠ 0 := by
    intro h0
    rw [List.length_eq_zero.mp h0, Split_nil] at hs
    exact h (hs ▸ List.mem_cons_self _ _)
  rw [if_pos hlen, hs]

/-- The route of the canonical path, unless a canonical path is `.`. -/
theorem dirSegs_canonicalPath (pre name : GoString)
    (hP : ['.', '.'] ∉ Split pre) (hn : ['.', '.'] ∉ Split name)
    (h1 : canonicalPath pre name ≠ ['.']) (h2 : canonicalPath [] name ≠ ['.']) :
    dirSegs (canonicalPath pre name) = properSegs pre ++ dirSegs (canonicalPath [] name) := by
  have hc := canonicalPath_eq pre name hP hn
  have hc0 := canonicalPath_eq [] name (by decide) hn
  rw [properSegs_nil, List.nil_append] at hc0
  have hname : dirSegs (canonicalPath [] name) = properSegs name := by
    by_cases hne : properSegs name = []
    · rcases hc0.2 hne with h | h
      · rw [h, hne]; rfl
      · exact absurd h h2
    · have hp := properSegs_intercalate _
        (by rw [properSegs_nil, List.nil_append]; exact hne) (properSegs_proper [] name)
      rw [properSegs_nil, List.nil_append] at hp
      rw [hc0.1 hne]
      exact dirSegs_of_Split _ _ hp.1 (fun hm => (mem_properSegs name _ hm).2 rfl)
  rw [hname]
  by_cases hne : properSegs pre ++ properSegs name = []
  · rcases hc.2 hne with h | h
    · rw [h, hne]; rfl
    · exact absurd h h1
  · rw [hc.1 hne]
    exact dirSegs_of_Split _ _ (properSegs_intercalate _ hne (properSegs_proper pre name)).1
      (fun hm => (properSegs_proper pre name _ hm).1 rfl)

/-- C8, as amended: when neither the prefix `P` nor the requested name has a
`..` element, the proper elements (those other than the empty one and `.`) of
the canonical path that `Open` passes to the accessors are exactly the proper
elements of `P` followed by those of the name, so the path does not leave the
subtree of `P`; the path is these elements joined by `/`, or `.` when there is
none; `Open` with the prefix `P` returns for the name what `Open` with the empty
prefix returns for that canonical path; and unless the canonical path, or the
canonical path of the unprefixed `Open` of the same name, is `.`, the route of
the canonical path (no step for the empty path, otherwise its segments) is the
proper elements of `P` followed by the route of the unprefixed `Open`, so that
walking it through a generated tree is walking to the node at `P` and from
there along the route of the unprefixed lookup. -/
theorem canonicalPath_mounted (pre name : GoString)
    (hP : ['.', '.'] ∉ Split pre) (hn : ['.', '.'] ∉ Split name) :
    properSegs (canonicalPath pre name) = properSegs pre ++ properSegs name ∧
    (canonicalPath pre name = ['/'].intercalate (properSegs pre ++ properSegs name) ∨
      (properSegs pre ++ properSegs name = [] ∧ canonicalPath pre name = ['.'])) ∧
    (∀ (ts : Time) (fs : AssetFS), fs.Prefix = pre →
      fs.Open ts name =
        ({ fs with Prefix := [] } : AssetFS).Open ts (canonicalPath pre name)) ∧
    (canonicalPath pre name ≠ ['.'] → canonicalPath [] name ≠ ['.'] →
      dirSegs (canonicalPath pre name) = properSegs pre ++ dirSegs (canonicalPath [] name) ∧
      ∀ root : bintree,
        root.walk (dirSegs (canonicalPath pre name)) =
          (root.walk (properSegs pre)).bind
            (fun sub => sub.walk (dirSegs (canonicalPath [] name)))) := by
  have h1 := canonicalPath_eq pre name hP hn
  refine ⟨properSegs_canonicalPath pre name hP hn, ?_, ?_, ?_⟩
  · by_cases hne : properSegs pre ++ properSegs name = []
    · rcases h1.2 hne with h | h
      · left; rw [h, hne]; rfl
      · right; exact ⟨hne, h⟩
    · left; exact h1.1 hne
  · intro ts fs hfs
    subst hfs
    exact (Open_of_canonicalPath ts fs { fs with Prefix := [] } name
      (canonicalPath fs.Prefix name) rfl rfl rfl (canonicalPath_idem fs.Prefix name hP hn)).symm
  · intro hd1 hd2
    have hsplit := dirSegs_canonicalPath pre name hP hn hd1 hd2
    refine ⟨hsplit, fun root => ?_⟩
    rw [hsplit, bintree_walk_append]

/-- Witness of C8: `/img/a.png` under the prefix `data`. -/
theorem canonicalPath_mounted_witness :
    (['.', '.'] ∉ Split "data".toList ∧ ['.', '.'] ∉ Split "/img/a.png".toList) ∧
    properSegs (canonicalPath "data".toList "/img/a.png".toList) =
      ["data".toList, "img".toList, "a.png".toList] ∧
    (exampleFS "data".toList).Open 1 "/img/a.png".toList =
      (exampleFS []).Open 1 "data/img/a.png".toList ∧
    dirSegs (canonicalPath "data".toList "/img/a.png".toList) =
      ["data".toList] ++ dirSegs (canonicalPath [] "/img/a.png".toList) :=
  ⟨⟨by decide, by decide⟩,
   (canonicalPath_mounted "data".toList "/img/a.png".toList (by decide) (by decide)).1,
   (canonicalPath_mounted "data".toList "/img/a.png".toList (by decide) (by decide)).2.2.1 1
     (exampleFS "data".toList) rfl,
   ((canonicalPath_mounted "data".toList "/img/a.png".toList (by decide) (by decide)).2.2.2
     (by decide) (by decide)).1⟩

/-- C8 as stated fails: under the prefix `data/img` the name `../foo.txt` has the
canonical path `data/foo.txt`, which does not start with the elements of the
prefix, and `Open` returns the file `data/foo.txt` from outside the subtree of
`data/img`. And under the prefix `data` the name `.` has the canonical path
`data`, so `Open` resolves the node at `data`, while the canonical path of the
unprefixed `Open` of `.` is `.`, which an unprefixed lookup inside the subtree
of `data` does not find. -/
theorem canonicalPath_escapes_prefix :
    canonicalPath "data/img".toList "../foo.txt".toList = "data/foo.txt".toList ∧
    ¬ (Split "data/img".toList <+:
        Split (canonicalPath "data/img".toList "../foo.txt".toList)) ∧
    (exampleFS "data/img".toList).Open 1 "../foo.txt".toList =
      .ok (.file (NewAssetFile 1 "data/foo.txt".toList [104, 105] 1500000000)) ∧
    canonicalPath "data".toList ".".toList = "data".toList ∧
    canonicalPath [] ".".toList = ".".toList ∧
    (exampleTree.walk (dirSegs (canonicalPath "data".toList ".".toList))).isSome = true ∧
    ((exampleTree.walk ["data".toList]).bind
      (fun sub => sub.walk (dirSegs (canonicalPath [] ".".toList)))).isSome = false :=
  ⟨by decide, by decide, rfl, by decide, by decide, rfl, rfl⟩

end Petrify
